import Mathlib

/-!
# RelaDB: a formal model of the typed in-memory relational store

This file is a shallow embedding of the RelaDB Python package (`src/__init__.py`):
the value codec (`serialize` / `deserialize`, which wrap `json.dumps` / `json.loads`),
the data model (`Field`, `Row`, `Table`, `Database`), and the persistence bridge
(`Database.save` / `Database.load`) over an abstract model of the single-file SQL
engine, which the specification treats as a black box that stores the inserted
column values and returns them unchanged.

Modelling decisions, recorded here once:

* Python runtime values are modelled by `RelaDB.Val`: `None`, `int`, `float`,
  `str`, `list`, and string-keyed `dict`.  Floats are modelled exactly as decimal
  numbers `m / 10 ^ e` (Python floats whose `repr` needs exponent notation, the
  non-finite floats, and `bool` — which the specification's type vocabulary
  {Integer, Float, Text, Composite} does not contain — are outside the model).
  A `Val.float m e` term stands for the Python float whose `repr` is exactly
  the decimal it spells; a term spelling a decimal that is not any float's
  shortest `repr` corresponds to no Python value and no program state.
* `json.dumps` / `json.loads` are modelled by an executable JSON printer and
  recursive-descent parser over `Val`, with Python's default separators
  `", "` and `": "`.  The printer escapes `"`/`\` and writes other control
  characters as `\u00XX`; the parser accepts the standard JSON escapes.  This
  pair models the Python codec on exactly two regimes, and every theorem below
  confines its decoding and encoding reasoning to them:
  (i) the canonical printable-ASCII printer image (`printJson v = s` with
  `wfVal v` and `asciiVal v`), on which the model parser and `json.loads`
  produce the same value and the model printer and `json.dumps` the same
  text — printable ASCII keeps `ensure_ascii` escaping and the short control
  escapes out of play; and
  (ii) text that cannot begin a JSON document (`safeText`, empty or starting
  with a character outside `jsonStart`), which `json.loads` and the model
  parser both reject, so both decoders return it unchanged.
  Outside these regimes the model decoder is not `json.loads`: the
  `true`/`false`/`NaN`/`Infinity`/`-Infinity` literals, exponent-notation
  numerals, the rejection of leading zeros, IEEE-754 rounding of long numeric
  literals, last-wins duplicate object keys and surrogate escapes are not
  modelled, and non-ASCII text prints literally rather than `ensure_ascii`
  escaped.  No theorem's statement depends on decoder or encoder behaviour
  outside regimes (i) and (ii).
* `wfVal` carves out the image of Python values inside `Val`: float mantissa
  representations carry at least one fractional digit (as Python `repr` prints)
  and dictionary keys are distinct (as Python `dict`s guarantee).
* Exceptions are modelled by `Except`/`Option DBError` results; `Table.add_row`
  returns the post-call table together with the raised error, so that the
  state a caller observes after an exception is explicit.
-/

namespace RelaDB

/-- A Python runtime value, as far as the RelaDB data model is concerned:
`None`, `int`, `float` (as an exact decimal `m / 10 ^ e`), `str`, `list`,
and a string-keyed `dict` kept in insertion order. -/
inductive Val where
  | null : Val
  | int (n : Int) : Val
  | float (m : Int) (e : Nat) : Val
  | str (s : String) : Val
  | list (xs : List Val) : Val
  | obj (kvs : List (String × Val)) : Val
deriving Inhabited

/-! ## Character-level helpers for the JSON codec -/

/-- JSON (and Python `json`) whitespace. -/
def wsChar (c : Char) : Bool := c = ' ' || c = '\t' || c = '\n' || c = '\r'

/-- Drop leading JSON whitespace. -/
def skipWs : List Char → List Char
  | [] => []
  | c :: cs => if wsChar c then skipWs cs else c :: cs

/-- Split off the longest leading run of decimal digits. -/
def grabDigits : List Char → List Char × List Char
  | [] => ([], [])
  | c :: cs =>
    if c.isDigit then
      let p := grabDigits cs
      (c :: p.1, p.2)
    else ([], c :: cs)

/-- Numeric value of a decimal digit character. -/
def digitVal (c : Char) : Nat := c.toNat - 48

/-- The value of a big-endian digit string, accumulated from `a`. -/
def digitsAcc (a : Nat) : List Char → Nat
  | [] => a
  | c :: cs => digitsAcc (10 * a + digitVal c) cs

/-- The numeric value of a big-endian decimal digit string. -/
def digitsToNat (ds : List Char) : Nat := digitsAcc 0 ds

/-- The decimal digit character for `d < 10`. -/
def digitChar (d : Nat) : Char :=
  match d with
  | 0 => '0' | 1 => '1' | 2 => '2' | 3 => '3' | 4 => '4'
  | 5 => '5' | 6 => '6' | 7 => '7' | 8 => '8' | _ => '9'

/-- Worker for `natDigits`; the fuel only bounds the recursion depth and
`natDigits` always supplies enough of it. -/
def natDigitsAux : Nat → Nat → List Char
  | 0, _ => []
  | fuel + 1, n =>
    if n < 10 then [digitChar n]
    else natDigitsAux fuel (n / 10) ++ [digitChar (n % 10)]

/-- Big-endian decimal digits of a natural number (`0` prints as `"0"`). -/
def natDigits (n : Nat) : List Char := natDigitsAux (n + 1) n

/-- Decimal rendering of an integer, as Python prints it. -/
def intChars (i : Int) : List Char :=
  if i < 0 then '-' :: natDigits i.natAbs else natDigits i.natAbs

/-- Decimal rendering of the modelled float `m / 10 ^ e`: the digits of `|m|`
padded to at least `e + 1` digits, with a decimal point before the last `e`
of them, e.g. `(305, 1) ↦ "30.5"` and `(5, 1) ↦ "0.5"`. -/
def floatChars (m : Int) (e : Nat) : List Char :=
  let ds := natDigits m.natAbs
  let ds := List.replicate (e + 1 - ds.length) '0' ++ ds
  let body := ds.take (ds.length - e) ++ '.' :: ds.drop (ds.length - e)
  if m < 0 then '-' :: body else body

/-- Hexadecimal digit character (lowercase) for `d < 16`. -/
def hexChar (d : Nat) : Char :=
  match d with
  | 10 => 'a' | 11 => 'b' | 12 => 'c' | 13 => 'd' | 14 => 'e' | 15 => 'f'
  | d => digitChar d

/-- Numeric value of a hexadecimal digit character. -/
def hexVal (c : Char) : Nat :=
  if c.isDigit then c.toNat - 48
  else if 'a' ≤ c && c ≤ 'f' then c.toNat - 87
  else c.toNat - 55

/-- Is `c` a hexadecimal digit? -/
def isHex (c : Char) : Bool :=
  c.isDigit || ('a' ≤ c && c ≤ 'f') || ('A' ≤ c && c ≤ 'F')

/-- JSON escape of one string character: `"` and `\` get a backslash escape,
other control characters become `\u00XX`, everything else is literal. -/
def escChar (c : Char) : List Char :=
  if c = '"' then ['\\', '"']
  else if c = '\\' then ['\\', '\\']
  else if c.toNat < 32 then
    ['\\', 'u', '0', '0', hexChar (c.toNat / 16), hexChar (c.toNat % 16)]
  else [c]

/-- JSON escape of a whole string body. -/
def escape (cs : List Char) : List Char := (cs.map escChar).flatten

/-! ## The JSON parser (model of `json.loads`) -/

/-- Decode a single-character JSON escape (the character after the
backslash), excluding the `u` form. -/
def escDecode (e : Char) : Option Char :=
  if e = '"' then some '"'
  else if e = '\\' then some '\\'
  else if e = '/' then some '/'
  else if e = 'n' then some '\n'
  else if e = 't' then some '\t'
  else if e = 'r' then some '\r'
  else if e = 'b' then some (Char.ofNat 8)
  else if e = 'f' then some (Char.ofNat 12)
  else none

/-- The code point of a four-digit hexadecimal escape. -/
def hex4 (h1 h2 h3 h4 : Char) : Nat :=
  ((hexVal h1 * 16 + hexVal h2) * 16 + hexVal h3) * 16 + hexVal h4

mutual

/-- Parse the body of a JSON string after the opening quote, returning the
decoded characters and the input after the closing quote.  Unescaped control
characters are rejected, as Python's strict-mode decoder does. -/
def parseStrBody : List Char → Option (List Char × List Char)
  | [] => none
  | c :: cs =>
    if c = '"' then some ([], cs)
    else if c = '\\' then parseEscape cs
    else if c.toNat < 32 then none
    else (parseStrBody cs).map (fun p => (c :: p.1, p.2))
termination_by structural cs => cs

/-- Parse what follows a backslash inside a JSON string. -/
def parseEscape : List Char → Option (List Char × List Char)
  | [] => none
  | e :: r =>
    if e = 'u' then parseUEscape r
    else
      match escDecode e with
      | some d => (parseStrBody r).map (fun p => (d :: p.1, p.2))
      | none => none
termination_by structural cs => cs

/-- Parse the four hexadecimal digits of a `\u` escape and the rest of the
string body. -/
def parseUEscape : List Char → Option (List Char × List Char)
  | h1 :: h2 :: h3 :: h4 :: r2 =>
    if isHex h1 && isHex h2 && isHex h3 && isHex h4 then
      (parseStrBody r2).map (fun p => (Char.ofNat (hex4 h1 h2 h3 h4) :: p.1, p.2))
    else none
  | _ => none
termination_by structural cs => cs

end

/-- Parse a JSON number literal: an optional minus sign, digits, and an
optional fractional part.  A fractional part makes it a `Val.float` with as
many decimal places as fraction digits; otherwise it is a `Val.int`. -/
def parseNumber (cs : List Char) : Option (Val × List Char) :=
  let neg : Bool := cs.head? = some '-'
  let ip := grabDigits (if neg then cs.tail else cs)
  if ip.1.isEmpty then none
  else if ip.2.head? = some '.' then
    let fp := grabDigits ip.2.tail
    if fp.1.isEmpty then none
    else
      let m : Int := (digitsToNat (ip.1 ++ fp.1) : Int)
      some (.float (if neg then -m else m) fp.1.length, fp.2)
  else
    let m : Int := (digitsToNat ip.1 : Int)
    some (.int (if neg then -m else m), ip.2)

mutual

/-- Parse one JSON value (after skipping whitespace).  `fuel` decreases on
every recursive call; `parseJson` supplies enough for any input. -/
def parseVal : Nat → List Char → Option (Val × List Char)
  | 0, _ => none
  | fuel + 1, cs =>
    match skipWs cs with
    | [] => none
    | c :: rest =>
      if c = 'n' then
        match rest with
        | 'u' :: 'l' :: 'l' :: r => some (.null, r)
        | _ => none
      else if c = '"' then
        (parseStrBody rest).map (fun p => (.str (String.mk p.1), p.2))
      else if c = '[' then
        match skipWs rest with
        | [] => none
        | c1 :: r1 =>
          if c1 = ']' then some (.list [], r1)
          else (parseElems fuel (c1 :: r1)).map (fun p => (.list p.1, p.2))
      else if c = '{' then
        match skipWs rest with
        | [] => none
        | c1 :: r1 =>
          if c1 = '}' then some (.obj [], r1)
          else (parseMembers fuel (c1 :: r1)).map (fun p => (.obj p.1, p.2))
      else parseNumber (c :: rest)

/-- Parse one or more comma-separated array elements up to the closing `]`. -/
def parseElems : Nat → List Char → Option (List Val × List Char)
  | 0, _ => none
  | fuel + 1, cs =>
    match parseVal fuel cs with
    | none => none
    | some (v, r) =>
      match skipWs r with
      | ',' :: r1 => (parseElems fuel r1).map (fun p => (v :: p.1, p.2))
      | ']' :: r1 => some ([v], r1)
      | _ => none

/-- Parse one or more comma-separated object members up to the closing brace. -/
def parseMembers : Nat → List Char → Option (List (String × Val) × List Char)
  | 0, _ => none
  | fuel + 1, cs =>
    match skipWs cs with
    | '"' :: cs1 =>
      match parseStrBody cs1 with
      | none => none
      | some (k, r) =>
        match skipWs r with
        | ':' :: r1 =>
          match parseVal fuel r1 with
          | none => none
          | some (v, r2) =>
            match skipWs r2 with
            | ',' :: r3 => (parseMembers fuel r3).map (fun p => ((String.mk k, v) :: p.1, p.2))
            | '}' :: r3 => some ([(String.mk k, v)], r3)
            | _ => none
        | _ => none
    | _ => none

end

/-- Model of `json.loads`: parse a complete document, rejecting trailing
input.  The fuel is ample for any input of this length. -/
def parseJson (s : String) : Option Val :=
  match parseVal (2 * s.data.length + 2) s.data with
  | some (v, r) => if skipWs r = [] then some v else none
  | none => none

/-! ## The JSON printer (model of `json.dumps` with its default separators) -/

mutual

/-- Render a value as Python's `json.dumps` does (separators `", "`, `": "`). -/
def printVal : Val → List Char
  | .null => ['n', 'u', 'l', 'l']
  | .int n => intChars n
  | .float m e => floatChars m e
  | .str s => '"' :: (escape s.data ++ ['"'])
  | .list xs => '[' :: (printElems xs ++ [']'])
  | .obj kvs => '{' :: (printMembers kvs ++ ['}'])
termination_by structural v => v

/-- Render array elements joined by `", "`. -/
def printElems : List Val → List Char
  | [] => []
  | [v] => printVal v
  | v :: vs => printVal v ++ ',' :: ' ' :: printElems vs
termination_by structural xs => xs

/-- Render object members `"k": v` joined by `", "`. -/
def printMembers : List (String × Val) → List Char
  | [] => []
  | [kv] => '"' :: (escape kv.1.data ++ '"' :: ':' :: ' ' :: printVal kv.2)
  | kv :: ms => ('"' :: (escape kv.1.data ++ '"' :: ':' :: ' ' :: printVal kv.2)) ++ ',' :: ' ' :: printMembers ms
termination_by structural kvs => kvs

end

/-- The canonical text encoding of a value, as a `String`. -/
def printJson (v : Val) : String := String.mk (printVal v)

/-! ## The value codec (`serialize` / `deserialize` from the source) -/

/-- `serialize` (src/__init__.py:5-17): a `dict` or `list` value becomes its
JSON text; every other value is returned unchanged. -/
def serialize : Val → Val
  | .list xs => .str (printJson (.list xs))
  | .obj kvs => .str (printJson (.obj kvs))
  | v => v

/-- `deserialize` (src/__init__.py:19-31): try to parse the value as JSON
text; on any failure — including non-text input, which raises `TypeError`
inside `json.loads` — return the value unchanged. -/
def deserialize : Val → Val
  | .str s =>
    match parseJson s with
    | some v => v
    | none => .str s
  | v => v

/-- The characters a JSON document accepted by `json.loads` can begin with:
whitespace (which the decoder skips), a digit or minus sign (numbers), a
quote (strings), the two open brackets, and the first letters of the
literals `true`, `false`, `null`, `NaN` and `Infinity`.  A nonempty string
whose first character lies outside this set fails `json.loads` at its very
first token. -/
def jsonStart (c : Char) : Bool :=
  wsChar c || c.isDigit || c = '-' || c = '"' || c = '[' || c = '{' ||
  c = 't' || c = 'f' || c = 'n' || c = 'N' || c = 'I'

/-- Character-list form of `safeText`. -/
def safeHead : List Char → Bool
  | [] => true
  | c :: _ => !(jsonStart c)

/-- Text on which `json.loads` and the model parser agree by both failing:
empty, or beginning with a character no JSON document can begin with (a
conservative, decidable sufficient condition).  On such text `deserialize`
is the identity in the source and in the model. -/
def safeText (s : String) : Bool := safeHead s.data

/-! ## Well-formedness: the image of Python values inside `Val` -/

/-- Distinctness of dictionary keys, as Python `dict`s guarantee. -/
def keysOk : List String → Bool
  | [] => true
  | k :: ks => !(ks.contains k) && keysOk ks

mutual

/-- `wfVal v` holds when `v` is the model of an actual Python value: float
representations carry at least one fractional digit (as Python `repr` always
prints one) and dictionary keys are distinct. -/
def wfVal : Val → Bool
  | .null => true
  | .int _ => true
  | .float _ e => decide (1 ≤ e)
  | .str _ => true
  | .list xs => wfList xs
  | .obj kvs => keysOk (kvs.map Prod.fst) && wfMembers kvs
termination_by structural v => v

/-- `wfVal` on every element of a list. -/
def wfList : List Val → Bool
  | [] => true
  | v :: vs => wfVal v && wfList vs
termination_by structural xs => xs

/-- `wfVal` on every member value of an object. -/
def wfMembers : List (String × Val) → Bool
  | [] => true
  | kv :: ms => wfVal kv.2 && wfMembers ms
termination_by structural kvs => kvs

end

/-- Printable ASCII (`0x20`–`0x7e`).  On strings of such characters the
model printer and `json.dumps` (whose default `ensure_ascii=True` would
escape anything outside this range, and which writes short escapes for the
control characters below it) produce the same text. -/
def asciiChar (c : Char) : Bool := decide (32 ≤ c.toNat) && decide (c.toNat ≤ 126)

/-- Every character of the string is printable ASCII. -/
def asciiStr (s : String) : Bool := s.data.all asciiChar

mutual

/-- Every string occurring in the value — as text or as a dictionary key —
is printable ASCII, so the model printer renders the value exactly as
`json.dumps` does. -/
def asciiVal : Val → Bool
  | .null => true
  | .int _ => true
  | .float _ _ => true
  | .str s => asciiStr s
  | .list xs => asciiList xs
  | .obj kvs => asciiMembers kvs
termination_by structural v => v

/-- `asciiVal` on every element of a list. -/
def asciiList : List Val → Bool
  | [] => true
  | v :: vs => asciiVal v && asciiList vs
termination_by structural xs => xs

/-- `asciiVal` on every key and member value of an object. -/
def asciiMembers : List (String × Val) → Bool
  | [] => true
  | kv :: ms => asciiStr kv.1 && asciiVal kv.2 && asciiMembers ms
termination_by structural kvs => kvs

end

/-! ## The data model: Field, Row, Table, Database -/

/-- The Python types that appear as declared field types in the source:
`int`, `float`, `str`, `list`, `dict`, and the `Union[list, dict]` that
`Database.load` infers for a persisted `JSON` column. -/
inductive PyType where
  | int | float | str | list | dict | ulistdict
deriving DecidableEq

/-- `isinstance(v, t)` for the types above (`Union[list, dict]` accepts both
shapes). -/
def isinstanceOf : Val → PyType → Bool
  | .int _, .int => true
  | .float _ _, .float => true
  | .str _, .str => true
  | .list _, .list => true
  | .obj _, .dict => true
  | .list _, .ulistdict => true
  | .obj _, .ulistdict => true
  | _, _ => false

/-- The error taxonomy of §7 of the specification.  The source raises
`ValueError` with distinct messages for the first three, `KeyError`-style
errors for the table/field lookups, and the engine's own error for a bad
SQL statement. -/
inductive DBError where
  | schemaMismatch | unknownField | typeMismatch
  | tableExists | tableNotFound | fieldNotFound
  | sqlError
deriving DecidableEq

/-- `Field` (src/__init__.py:33-43): a name and a declared type. -/
structure Field where
  name : String
  data_type : PyType
deriving DecidableEq

/-- First-match lookup in an insertion-ordered association list: the model of
a Python `dict` access. -/
def listLookup {α : Type} (l : List (String × α)) (k : String) : Option α :=
  (l.find? (fun kv => kv.1 = k)).map (fun kv => kv.2)

/-- `Row` (src/__init__.py:45-79): an insertion-ordered mapping of field
names to encoded values.  The constructor applies `serialize` to every
value, as `Row.__init__` does. -/
structure Row where
  fields : List (String × Val)
deriving Inhabited

/-- `Row(**kwargs)`: every value passes through `serialize`. -/
def mkRow (kwargs : List (String × Val)) : Row :=
  ⟨kwargs.map (fun kv => (kv.1, serialize kv.2))⟩

/-- `Row.get` with no argument defaults to `''` and then returns the decoded
mapping of all fields; otherwise it decodes the stored value for `field`,
raising a `KeyError` (here `fieldNotFound`) when the name is absent. -/
def Row.get (r : Row) (field : String) : Except DBError Val :=
  if field = "" then
    .ok (.obj (r.fields.map (fun kv => (kv.1, deserialize kv.2))))
  else
    match listLookup r.fields field with
    | some v => .ok (deserialize v)
    | none => .error .fieldNotFound

/-- The specification's `get_all`: the decoded mapping of every stored
field (the source exposes it as `Row.get('')`). -/
def Row.get_all (r : Row) : List (String × Val) :=
  r.fields.map (fun kv => (kv.1, deserialize kv.2))

/-- `Row.add_field`: insert or overwrite one field, encoding the value.
Python assignment to an existing dict key overwrites in place, keeping the
key's position; a new key is appended. -/
def Row.add_field (r : Row) (name : String) (v : Val) : Row :=
  if (r.fields.map Prod.fst).contains name then
    ⟨r.fields.map (fun kv => if kv.1 = name then (kv.1, serialize v) else kv)⟩
  else ⟨r.fields ++ [(name, serialize v)]⟩

/-- `Table` (src/__init__.py:81-173): a name, an ordered field list, and the
row list. -/
structure Table where
  name : String
  fields : List Field
  rows : List Row

/-- `Table.add_field`: append one `Field` to the schema. -/
def Table.add_field (t : Table) (name : String) (ty : PyType) : Table :=
  { t with fields := t.fields ++ [⟨name, ty⟩] }

/-- `Table.add_fields`: append a `Field` per mapping entry, in order. -/
def Table.add_fields (t : Table) (fs : List (String × PyType)) : Table :=
  fs.foldl (fun t p => t.add_field p.1 p.2) t

/-- `Table.delete_fields` (src/__init__.py:113-124): drop every schema field
whose name is listed and delete the listed keys from every row. -/
def Table.delete_fields (t : Table) (names : List String) : Table :=
  { t with
    fields := t.fields.filter (fun f => !(names.contains f.name))
    rows := t.rows.map (fun r => ⟨r.fields.filter (fun kv => !(names.contains kv.1))⟩) }

/-- The declared type of the first schema field called `name`, as the
`next(...)` generator expression in `add_row` finds it. -/
def findType (fields : List Field) (name : String) : Option PyType :=
  (fields.find? (fun f => f.name = name)).map (fun f => f.data_type)

/-- The validation loop of `add_row`: the first failing check wins, reading
the supplied pairs in order. -/
def checkKwargs (fields : List Field) : List (String × Val) → Option DBError
  | [] => none
  | kv :: rest =>
    match findType fields kv.1 with
    | none => some .unknownField
    | some ty =>
      if isinstanceOf kv.2 ty then checkKwargs fields rest
      else some .typeMismatch

/-- `Table.add_row` (src/__init__.py:126-148), returned as the post-call
table paired with the raised error: the count check, then the per-value
name/type checks, and only then the append of the freshly built `Row`. -/
def Table.add_row (t : Table) (kwargs : List (String × Val)) : Table × Option DBError :=
  if kwargs.length ≠ t.fields.length then (t, some .schemaMismatch)
  else
    match checkKwargs t.fields kwargs with
    | some e => (t, some e)
    | none => ({ t with rows := t.rows ++ [mkRow kwargs] }, none)

/-- `Table.delete_row`: keep the rows the condition rejects. -/
def Table.delete_row (t : Table) (cond : Row → Bool) : Table :=
  { t with rows := t.rows.filter (fun r => !(cond r)) }

/-- `Table.find` (src/__init__.py:159-173): the matching rows in order,
truncated to `amount` when `amount > 0` (Python slicing `[:amount]`). -/
def Table.find (t : Table) (cond : Row → Bool) (amount : Int) : List Row :=
  let matching := t.rows.filter cond
  if amount > 0 then matching.take amount.toNat else matching

/-- `Database` (src/__init__.py:175-236): the insertion-ordered table
catalog and the bound file name. -/
structure Database where
  tables : List (String × Table)
  db_file : String

/-- `Database.create`: fail if the name is taken, else build the table,
apply `add_fields`, and store it. -/
def Database.create (db : Database) (tname : String) (fs : List (String × PyType)) :
    Except DBError Database :=
  if db.tables.any (fun kv => kv.1 = tname) then .error .tableExists
  else .ok { db with tables := db.tables ++ [(tname, (Table.mk tname [] []).add_fields fs)] }

/-- `Database.delete`: fail if the name is absent, else remove the table. -/
def Database.delete (db : Database) (tname : String) : Except DBError Database :=
  if db.tables.any (fun kv => kv.1 = tname) then
    .ok { db with tables := db.tables.filter (fun kv => kv.1 ≠ tname) }
  else .error .tableNotFound

/-- `Database.get`: fail if the name is absent. -/
def Database.get (db : Database) (tname : String) : Except DBError Table :=
  match listLookup db.tables tname with
  | some t => .ok t
  | none => .error .tableNotFound

/-! ## The persistence bridge over the abstract engine

The engine (§6 of the specification) is a black box: a catalog of tables,
each a list of `(column name, column kind)` pairs plus stored rows, which
`INSERT` fills — unnamed columns with `NULL` — and `SELECT *` returns in
column order, values unchanged.  SQL-identifier quoting is not modelled:
table and column names are assumed to be plain identifiers. -/

/-- One persisted table: its columns `(name, kind)` in order and its row
tuples, each aligned with the columns. -/
structure STable where
  cols : List (String × String)
  rows : List (List Val)

/-- The persisted file: the engine's table catalog in creation order. -/
abbrev SqlFile := List (String × STable)

/-- The column kind `Database.save` derives for a declared field type
(src/__init__.py:250-255): `list`/`dict` map to `JSON`, `float` to `REAL`,
`int` to `INTEGER`, anything else — including the `Union[list, dict]` a
loaded table carries — to `TEXT`. -/
def colKind : PyType → String
  | .list => "JSON"
  | .dict => "JSON"
  | .float => "REAL"
  | .int => "INTEGER"
  | _ => "TEXT"

/-- The semantic type `Database.load` infers from a persisted column kind
(src/__init__.py:286-292). -/
def inferType (kind : String) : PyType :=
  if kind = "JSON" then .ulistdict
  else if kind = "REAL" then .float
  else if kind = "INTEGER" then .int
  else .str

/-- One `INSERT INTO t (cols…) VALUES (…)` with the row's own column names:
the engine aligns the named values with the table columns, fills unnamed
columns with `NULL`, and rejects a name that is not a column. -/
def insertRow (cols : List (String × String)) (kvs : List (String × Val)) :
    Except DBError (List Val) :=
  if kvs.all (fun kv => cols.any (fun c => c.1 = kv.1)) then
    .ok (cols.map (fun c => (listLookup kvs c.1).getD .null))
  else .error .sqlError

/-- Save one table (the body of the loop in src/__init__.py:248-265):
derive the column kinds, `DROP`+`CREATE` (a fresh table with no columns is
a SQL syntax error), then insert every row, re-serializing its values. -/
def saveTable (f : SqlFile) (tname : String) (t : Table) : Except DBError SqlFile :=
  let cols := t.fields.map (fun fl => (fl.name, colKind fl.data_type))
  if cols.isEmpty then .error .sqlError
  else
    match t.rows.mapM (fun r => insertRow cols (r.fields.map (fun kv => (kv.1, serialize kv.2)))) with
    | .error e => .error e
    | .ok rows => .ok ((f.filter (fun q => q.1 ≠ tname)) ++ [(tname, ⟨cols, rows⟩)])

/-- `Database.save` (src/__init__.py:238-268) against the current contents
`f` of the bound file: a full replace of each in-memory table. -/
def Database.save (db : Database) (f : SqlFile) : Except DBError SqlFile :=
  db.tables.foldlM (fun f p => saveTable f p.1 p.2) f

/-- One iteration of the row loop in `load`: `add_row` with the decoded
tuple zipped against the column names; an error propagates. -/
def loadRowStep (cols : List (String × String)) (t : Table) (rv : List Val) :
    Except DBError Table :=
  match Table.add_row t (List.zip (cols.map Prod.fst) (rv.map deserialize)) with
  | (t1, none) => Except.ok t1
  | (_, some e) => Except.error e

/-- The row loop of `load` over one persisted table's tuples. -/
def loadRowsInto (cols : List (String × String)) (rows : List (List Val)) (t0 : Table) :
    Except DBError Table :=
  rows.foldlM (loadRowStep cols) t0

/-- Load one persisted table (the body of the loop in
src/__init__.py:277-299): skip the engine's bookkeeping table, infer the
schema, `create`, then run the row loop; an `add_row` failure propagates. -/
def loadTable (db : Database) (tname : String) (st : STable) : Except DBError Database :=
  if tname = "sqlite_sequence" then .ok db
  else
    (db.create tname (st.cols.map (fun c => (c.1, inferType c.2)))).bind (fun db1 =>
      (loadRowsInto st.cols st.rows
          ((Table.mk tname [] []).add_fields (st.cols.map (fun c => (c.1, inferType c.2))))).bind
        (fun t => .ok { db1 with
          tables := db1.tables.map (fun kv => if kv.1 = tname then (kv.1, t) else kv) }))

/-- `Database.load` (src/__init__.py:270-300) from the contents `f` of the
bound file.  The source mutates tables in place, so an error leaves the
tables already loaded in the Database; this model returns only the error in
that case, and no claim below depends on the partially-loaded state. -/
def Database.load (db : Database) (f : SqlFile) : Except DBError Database :=
  f.foldlM (fun d p => loadTable d p.1 p.2) db

/-! ## Decimal-digit lemmas -/

theorem digitChar_spec : ∀ d, d < 10 → (digitChar d).isDigit = true ∧ digitVal (digitChar d) = d := by
  intro d hd
  interval_cases d <;> exact ⟨by decide, by decide⟩

theorem digitsAcc_nil (a : Nat) : digitsAcc a [] = a := rfl

theorem digitsAcc_cons (a : Nat) (c : Char) (cs : List Char) :
    digitsAcc a (c :: cs) = digitsAcc (10 * a + digitVal c) cs := rfl

theorem digitsAcc_append (xs ys : List Char) :
    ∀ a, digitsAcc a (xs ++ ys) = digitsAcc (digitsAcc a xs) ys := by
  induction xs with
  | nil => intro a; rfl
  | cons c cs ih =>
    intro a
    rw [List.cons_append, digitsAcc_cons, digitsAcc_cons, ih]

theorem digitsAcc_eq (ds : List Char) :
    ∀ a, digitsAcc a ds = a * 10 ^ ds.length + digitsToNat ds := by
  induction ds with
  | nil => intro a; simp [digitsAcc_nil, digitsToNat]
  | cons c cs ih =>
    intro a
    simp only [digitsToNat, digitsAcc_cons, List.length_cons]
    rw [ih, ih (10 * 0 + digitVal c)]
    ring

theorem natDigitsAux_digits :
    ∀ fuel n c, c ∈ natDigitsAux fuel n → c.isDigit = true := by
  intro fuel
  induction fuel with
  | zero => intro n c h; simp [natDigitsAux] at h
  | succ f ih =>
    intro n c h
    by_cases hn : n < 10
    · simp [natDigitsAux, hn] at h
      exact h ▸ (digitChar_spec n hn).1
    · simp [natDigitsAux, hn] at h
      rcases h with h | h
      · exact ih _ _ h
      · exact h ▸ (digitChar_spec _ (Nat.mod_lt _ (by omega))).1

theorem natDigitsAux_ne_nil : ∀ fuel n, n < fuel → natDigitsAux fuel n ≠ [] := by
  intro fuel
  induction fuel with
  | zero => intro n h; omega
  | succ f _ =>
    intro n _
    by_cases hn : n < 10 <;> simp [natDigitsAux, hn]

theorem natDigitsAux_succ (f n : Nat) :
    natDigitsAux (f + 1) n =
      if n < 10 then [digitChar n] else natDigitsAux f (n / 10) ++ [digitChar (n % 10)] := rfl

theorem digitsToNat_natDigitsAux : ∀ fuel n, n < fuel → digitsToNat (natDigitsAux fuel n) = n := by
  intro fuel
  induction fuel with
  | zero => intro n h; omega
  | succ f ih =>
    intro n hn
    by_cases h10 : n < 10
    · rw [natDigitsAux_succ, if_pos h10]
      show digitsAcc 0 [digitChar n] = n
      rw [digitsAcc_cons, digitsAcc_nil, (digitChar_spec n h10).2]
      omega
    · have hd : n / 10 < f := by
        have hlt : n / 10 < n := Nat.div_lt_self (by omega) (by omega)
        omega
      rw [natDigitsAux_succ, if_neg h10]
      show digitsAcc 0 (natDigitsAux f (n / 10) ++ [digitChar (n % 10)]) = n
      rw [digitsAcc_append]
      have h1 : digitsAcc 0 (natDigitsAux f (n / 10)) = n / 10 := ih _ hd
      rw [h1, digitsAcc_cons, digitsAcc_nil, (digitChar_spec _ (Nat.mod_lt _ (by omega))).2]
      omega

theorem natDigits_digits (n : Nat) : ∀ c ∈ natDigits n, c.isDigit = true :=
  fun c hc => natDigitsAux_digits _ _ c hc

theorem digitsToNat_natDigits (n : Nat) : digitsToNat (natDigits n) = n :=
  digitsToNat_natDigitsAux _ _ (Nat.lt_succ_self n)

theorem natDigits_ne_nil (n : Nat) : natDigits n ≠ [] :=
  natDigitsAux_ne_nil _ _ (Nat.lt_succ_self n)

theorem natDigits_head (n : Nat) : ∃ c t, natDigits n = c :: t ∧ c.isDigit = true := by
  cases h : natDigits n with
  | nil => exact absurd h (natDigits_ne_nil n)
  | cons c t =>
    refine ⟨c, t, rfl, natDigits_digits n c ?_⟩
    simp [h]

theorem digitsToNat_pad (k : Nat) (ds : List Char) :
    digitsToNat (List.replicate k '0' ++ ds) = digitsToNat ds := by
  induction k with
  | zero => rfl
  | succ m ih =>
    show digitsAcc 0 (('0' :: List.replicate m '0') ++ ds) = digitsToNat ds
    rw [List.cons_append, digitsAcc_cons]
    have h0 : (10 * 0 + digitVal '0') = 0 := by decide
    rw [h0]
    exact ih

/-! ## `grabDigits` and number-literal parsing -/

/-- The head of `rest` is not a decimal digit (vacuously true for `[]`). -/
def noDigitHead : List Char → Prop
  | [] => True
  | c :: _ => c.isDigit = false

theorem grabDigits_split (ds rest : List Char) (hds : ∀ c ∈ ds, c.isDigit = true)
    (hr : noDigitHead rest) : grabDigits (ds ++ rest) = (ds, rest) := by
  induction ds with
  | nil =>
    cases rest with
    | nil => rfl
    | cons c t =>
      have hc : c.isDigit = false := hr
      simp [grabDigits, hc]
  | cons c cs ih =>
    have hc := hds c (by simp)
    simp [grabDigits, hc, ih (fun x hx => hds x (by simp [hx]))]

/-- Characters that can legitimately follow a printed value: a separator,
a closing bracket, or the end of input. -/
def sepOk : List Char → Prop
  | [] => True
  | c :: _ => c = ',' ∨ c = ']' ∨ c = '}'

theorem sepOk_noDigit {rest : List Char} (h : sepOk rest) : noDigitHead rest := by
  cases rest with
  | nil => trivial
  | cons c t =>
    rcases h with h | h | h <;> subst h <;> simp [noDigitHead]

theorem isDigit_ne {c : Char} (h : c.isDigit = true) :
    c ≠ '-' ∧ c ≠ '.' ∧ c ≠ 'n' ∧ c ≠ '"' ∧ c ≠ '[' ∧ c ≠ '{' ∧ wsChar c = false ∧
      c ≠ ']' ∧ c ≠ '}' ∧ c ≠ ',' := by
  have hw : wsChar c = false := by
    have h1 : c ≠ ' ' := fun hEq => absurd (hEq ▸ h) (by decide)
    have h2 : c ≠ '\t' := fun hEq => absurd (hEq ▸ h) (by decide)
    have h3 : c ≠ '\n' := fun hEq => absurd (hEq ▸ h) (by decide)
    have h4 : c ≠ '\r' := fun hEq => absurd (hEq ▸ h) (by decide)
    simp [wsChar, h1, h2, h3, h4]
  exact ⟨fun hEq => absurd (hEq ▸ h) (by decide), fun hEq => absurd (hEq ▸ h) (by decide),
    fun hEq => absurd (hEq ▸ h) (by decide), fun hEq => absurd (hEq ▸ h) (by decide),
    fun hEq => absurd (hEq ▸ h) (by decide), fun hEq => absurd (hEq ▸ h) (by decide),
    hw, fun hEq => absurd (hEq ▸ h) (by decide), fun hEq => absurd (hEq ▸ h) (by decide),
    fun hEq => absurd (hEq ▸ h) (by decide)⟩


theorem grabDigits_nat (n : Nat) (rest : List Char) (hr : noDigitHead rest) :
    grabDigits (natDigits n ++ rest) = (natDigits n, rest) :=
  grabDigits_split _ _ (natDigits_digits n) hr

theorem natDigits_isEmpty (n : Nat) : (natDigits n).isEmpty = false := by
  cases h : natDigits n with
  | nil => exact absurd h (natDigits_ne_nil n)
  | cons c t => rfl

theorem sepOk_no_dot {rest : List Char} (h : sepOk rest) : rest.head? ≠ some '.' := by
  rcases rest with _ | ⟨c, t⟩
  · simp
  · rcases h with hc | hc | hc <;> subst hc <;> simp

theorem parseNumber_intChars (n : Int) (rest : List Char) (h : sepOk rest) :
    parseNumber (intChars n ++ rest) = some (.int n, rest) := by
  have hnd : noDigitHead rest := sepOk_noDigit h
  have hdot := sepOk_no_dot h
  have hm : (digitsToNat (natDigits n.natAbs) : Int) = (n.natAbs : Int) := by
    rw [digitsToNat_natDigits]
  rcases Int.lt_or_le n 0 with hneg | hpos
  · have h1 : intChars n = '-' :: natDigits n.natAbs := by rw [intChars, if_pos hneg]
    have hsgn : (-(n.natAbs : Int)) = n := by omega
    rw [h1, List.cons_append]
    simp only [parseNumber, List.head?_cons, List.tail_cons, decide_True, if_true]
    rw [grabDigits_nat _ _ hnd]
    simp only [natDigits_isEmpty, Bool.false_eq_true, if_false, hdot, if_true, hm, hsgn,
      reduceIte]
  · have h1 : intChars n = natDigits n.natAbs := by
      rw [intChars, if_neg (by omega)]
    have hsgn : ((n.natAbs : Int)) = n := by omega
    obtain ⟨c, t, hct, hcd⟩ := natDigits_head n.natAbs
    have hcne : c ≠ '-' := (isDigit_ne hcd).1
    rw [h1]
    simp only [parseNumber]
    rw [hct, List.cons_append, List.head?_cons]
    simp only [Option.some.injEq, hcne, decide_eq_true_eq, decide_eq_false, if_false,
      Bool.false_eq_true]
    rw [← List.cons_append, ← hct, grabDigits_nat _ _ hnd]
    simp only [natDigits_isEmpty, Bool.false_eq_true, if_false, hdot, hm, hsgn, reduceIte]
theorem parseNumber_floatChars (m : Int) (e : Nat) (he : 1 ≤ e) (rest : List Char) (h : sepOk rest) :
    parseNumber (floatChars m e ++ rest) = some (.float m e, rest) := by
  have hnd : noDigitHead rest := sepOk_noDigit h
  -- the decomposition of the printed body
  have hdigs : ∀ c ∈ List.replicate (e + 1 - (natDigits m.natAbs).length) '0' ++ natDigits m.natAbs,
      c.isDigit = true := by
    intro c hc
    rcases List.mem_append.mp hc with hc | hc
    · rw [List.eq_of_mem_replicate hc]; decide
    · exact natDigits_digits _ c hc
  set ds := List.replicate (e + 1 - (natDigits m.natAbs).length) '0' ++ natDigits m.natAbs with hds
  have hL : e + 1 ≤ ds.length := by
    rw [hds]
    simp only [List.length_append, List.length_replicate]
    omega
  set ip := ds.take (ds.length - e) with hip
  set fr := ds.drop (ds.length - e) with hfr
  have hipd : ∀ c ∈ ip, c.isDigit = true := fun c hc => hdigs c (List.mem_of_mem_take hc)
  have hfrd : ∀ c ∈ fr, c.isDigit = true := fun c hc => hdigs c (List.mem_of_mem_drop hc)
  have hiplen : ip.length = ds.length - e := by
    rw [hip, List.length_take]
    omega
  have hfrlen : fr.length = e := by
    rw [hfr, List.length_drop]
    omega
  have hipne : ip ≠ [] := by
    intro hnil
    rw [hnil] at hiplen
    simp at hiplen
    omega
  have hsplit : ip ++ fr = ds := List.take_append_drop _ _
  have hval : digitsToNat (ip ++ fr) = m.natAbs := by
    rw [hsplit, hds, digitsToNat_pad, digitsToNat_natDigits]
  have hbody : floatChars m e =
      (if m < 0 then ['-'] else []) ++ (ip ++ '.' :: fr) := by
    rw [floatChars]
    rcases Int.lt_or_le m 0 with hm | hm
    · simp only [if_pos hm]
      rfl
    · simp only [if_neg (by omega : ¬ m < 0)]
      rfl
  -- the unsigned part parses to the float
  obtain ⟨c0, t0, hct, hcd⟩ : ∃ c0 t0, ip = c0 :: t0 ∧ c0.isDigit = true := by
    rcases hx : ip with _ | ⟨c0, t0⟩
    · exact absurd hx hipne
    · exact ⟨c0, t0, rfl, hipd c0 (hx ▸ List.mem_cons_self c0 t0)⟩
  have hdotnd : noDigitHead ('.' :: (fr ++ rest)) := by
    show ('.').isDigit = false
    decide
  have hgrab1 : grabDigits (ip ++ '.' :: (fr ++ rest)) = (ip, '.' :: (fr ++ rest)) :=
    grabDigits_split _ _ hipd hdotnd
  have hgrab2 : grabDigits (fr ++ rest) = (fr, rest) := grabDigits_split _ _ hfrd hnd
  have hipe : ip.isEmpty = false := by
    rw [hct]; rfl
  have hfre : fr.isEmpty = false := by
    cases hx : fr with
    | nil => rw [hx] at hfrlen; simp at hfrlen; omega
    | cons a b => rfl
  rcases Int.lt_or_le m 0 with hm | hm
  · have hsgn : (-(m.natAbs : Int)) = m := by omega
    rw [hbody, if_pos hm]
    show parseNumber ('-' :: (ip ++ '.' :: fr) ++ rest) = _
    rw [List.cons_append, List.append_assoc, List.cons_append]
    simp only [parseNumber, List.head?_cons, List.tail_cons, decide_True, if_true]
    rw [hgrab1]
    simp only [hipe, Bool.false_eq_true, if_false, List.head?_cons, Option.some.injEq,
      List.tail_cons, reduceIte, hgrab2, hfre, hval, hfrlen, hm, hsgn]
  · have hsgn : ((m.natAbs : Int)) = m := by omega
    rw [hbody, if_neg (by omega : ¬ m < 0)]
    show parseNumber ((ip ++ '.' :: fr) ++ rest) = _
    rw [List.append_assoc, List.cons_append]
    have hcne : c0 ≠ '-' := (isDigit_ne hcd).1
    simp only [parseNumber]
    rw [hct, List.cons_append, List.head?_cons]
    simp only [Option.some.injEq, hcne, decide_eq_true_eq, decide_eq_false, if_false,
      Bool.false_eq_true]
    rw [← List.cons_append, ← hct, hgrab1]
    simp only [hipe, Bool.false_eq_true, if_false, List.head?_cons, Option.some.injEq,
      List.tail_cons, reduceIte, hgrab2, hfre, hval, hfrlen, hsgn]


/-! ## String escaping round-trip -/

theorem hexChar_spec : ∀ d, d < 16 → isHex (hexChar d) = true ∧ hexVal (hexChar d) = d := by
  intro d hd
  interval_cases d <;> exact ⟨by decide, by decide⟩

theorem escape_nil : escape [] = [] := rfl

theorem escape_cons (c : Char) (cs : List Char) : escape (c :: cs) = escChar c ++ escape cs := by
  simp [escape]

theorem parseStrBody_cons (c : Char) (cs : List Char) :
    parseStrBody (c :: cs) =
      (if c = '"' then some ([], cs)
      else if c = '\\' then parseEscape cs
      else if c.toNat < 32 then none
      else (parseStrBody cs).map (fun p => (c :: p.1, p.2))) := by
  rw [parseStrBody]

theorem parseEscape_cons (e : Char) (r : List Char) :
    parseEscape (e :: r) =
      (if e = 'u' then parseUEscape r
      else
        match escDecode e with
        | some d => (parseStrBody r).map (fun p => (d :: p.1, p.2))
        | none => none) := by
  rw [parseEscape]

theorem parseUEscape_cons (h1 h2 h3 h4 : Char) (r2 : List Char) :
    parseUEscape (h1 :: h2 :: h3 :: h4 :: r2) =
      (if isHex h1 && isHex h2 && isHex h3 && isHex h4 then
        (parseStrBody r2).map (fun p => (Char.ofNat (hex4 h1 h2 h3 h4) :: p.1, p.2))
      else none) := by
  rw [parseUEscape]

theorem parseStrBody_escape : ∀ cs rest, parseStrBody (escape cs ++ '"' :: rest) = some (cs, rest) := by
  intro cs
  induction cs with
  | nil =>
    intro rest
    rw [escape_nil, List.nil_append, parseStrBody_cons, if_pos rfl]
  | cons c cs ih =>
    intro rest
    rw [escape_cons, List.append_assoc]
    by_cases h1 : c = '"'
    · subst h1
      show parseStrBody ('\\' :: '"' :: (escape cs ++ '"' :: rest)) = _
      rw [parseStrBody_cons]
      simp only [reduceIte]
      rw [parseEscape_cons]
      simp only [reduceIte, escDecode, ih]
      rfl
    · by_cases h2 : c = '\\'
      · subst h2
        show parseStrBody ('\\' :: '\\' :: (escape cs ++ '"' :: rest)) = _
        rw [parseStrBody_cons]
        simp only [reduceIte]
        rw [parseEscape_cons]
        simp only [reduceIte, escDecode, ih]
        rfl
      · by_cases h3 : c.toNat < 32
        · have hesc : escChar c = ['\\', 'u', '0', '0', hexChar (c.toNat / 16), hexChar (c.toNat % 16)] := by
            rw [escChar, if_neg h1, if_neg h2, if_pos h3]
          rw [hesc]
          show parseStrBody ('\\' :: 'u' :: '0' :: '0' :: hexChar (c.toNat / 16) :: hexChar (c.toNat % 16) :: (escape cs ++ '"' :: rest)) = _
          rw [parseStrBody_cons]
          simp only [reduceIte]
          rw [parseEscape_cons]
          simp only [reduceIte]
          rw [parseUEscape_cons]
          have hd16 : c.toNat / 16 < 16 := by omega
          have hm16 : c.toNat % 16 < 16 := by omega
          simp only [(hexChar_spec _ hd16).1, (hexChar_spec _ hm16).1]
          have hhex0 : isHex '0' = true := by decide
          simp only [hhex0, Bool.and_self, if_true]
          have hcode : hex4 '0' '0' (hexChar (c.toNat / 16)) (hexChar (c.toNat % 16)) = c.toNat := by
            rw [hex4, (hexChar_spec _ hd16).2, (hexChar_spec _ hm16).2]
            have h0 : hexVal '0' = 0 := by decide
            rw [h0]
            omega
          rw [hcode, Char.ofNat_toNat, ih]
          rfl
        · have hesc : escChar c = [c] := by
            rw [escChar, if_neg h1, if_neg h2, if_neg h3]
          rw [hesc]
          show parseStrBody (c :: (escape cs ++ '"' :: rest)) = _
          rw [parseStrBody_cons, if_neg h1, if_neg h2, if_neg h3, ih]
          rfl


/-! ## Heads of printed values, whitespace behaviour of the parser -/

/-- Characters able to start a printed JSON value. -/
def headStartOk (c : Char) : Prop :=
  c = 'n' ∨ c = '"' ∨ c = '[' ∨ c = '{' ∨ c = '-' ∨ c.isDigit = true

theorem headStartOk_facts {c : Char} (h : headStartOk c) :
    wsChar c = false ∧ c ≠ ']' ∧ c ≠ '}' ∧ c ≠ ',' := by
  rcases h with h | h | h | h | h | h
  · subst h; exact ⟨by decide, by decide, by decide, by decide⟩
  · subst h; exact ⟨by decide, by decide, by decide, by decide⟩
  · subst h; exact ⟨by decide, by decide, by decide, by decide⟩
  · subst h; exact ⟨by decide, by decide, by decide, by decide⟩
  · subst h; exact ⟨by decide, by decide, by decide, by decide⟩
  · have := isDigit_ne h
    exact ⟨this.2.2.2.2.2.2.1, this.2.2.2.2.2.2.2.1, this.2.2.2.2.2.2.2.2.1,
      this.2.2.2.2.2.2.2.2.2⟩

theorem intChars_head (n : Int) : ∃ c t, intChars n = c :: t ∧ (c = '-' ∨ c.isDigit = true) := by
  rw [intChars]
  rcases Int.lt_or_le n 0 with h | h
  · rw [if_pos h]
    exact ⟨'-', _, rfl, Or.inl rfl⟩
  · rw [if_neg (by omega)]
    obtain ⟨c, t, hct, hd⟩ := natDigits_head n.natAbs
    exact ⟨c, t, hct, Or.inr hd⟩

theorem floatChars_head (m : Int) (e : Nat) :
    ∃ c t, floatChars m e = c :: t ∧ (c = '-' ∨ c.isDigit = true) := by
  rw [floatChars]
  rcases Int.lt_or_le m 0 with h | h
  · rw [if_pos h]
    exact ⟨'-', _, rfl, Or.inl rfl⟩
  · rw [if_neg (by omega)]
    set ds := List.replicate (e + 1 - (natDigits m.natAbs).length) '0' ++ natDigits m.natAbs
      with hds
    have hL : e + 1 ≤ ds.length := by
      rw [hds]
      simp only [List.length_append, List.length_replicate]
      have := natDigits_ne_nil m.natAbs
      have : 1 ≤ (natDigits m.natAbs).length := by
        cases hx : natDigits m.natAbs with
        | nil => exact absurd hx (natDigits_ne_nil _)
        | cons a b => simp [hx]
      omega
    cases hx : ds.take (ds.length - e) with
    | nil =>
      exfalso
      have : (ds.take (ds.length - e)).length = ds.length - e := by
        rw [List.length_take]
        omega
      rw [hx] at this
      simp at this
      omega
    | cons c t =>
      refine ⟨c, t ++ '.' :: ds.drop (ds.length - e), by rw [List.cons_append], Or.inr ?_⟩
      have hmem : c ∈ ds := List.mem_of_mem_take (hx ▸ List.mem_cons_self c t)
      rcases List.mem_append.mp hmem with hm | hm
      · rw [List.eq_of_mem_replicate hm]; decide
      · exact natDigits_digits _ c hm

theorem printVal_head (v : Val) : ∃ c t, printVal v = c :: t ∧ headStartOk c := by
  cases v with
  | null => exact ⟨'n', _, rfl, Or.inl rfl⟩
  | int n =>
    obtain ⟨c, t, h1, h2⟩ := intChars_head n
    exact ⟨c, t, h1, h2.elim (fun h => Or.inr (Or.inr (Or.inr (Or.inr (Or.inl h)))))
      (fun h => Or.inr (Or.inr (Or.inr (Or.inr (Or.inr h)))))⟩
  | float m e =>
    obtain ⟨c, t, h1, h2⟩ := floatChars_head m e
    exact ⟨c, t, h1, h2.elim (fun h => Or.inr (Or.inr (Or.inr (Or.inr (Or.inl h)))))
      (fun h => Or.inr (Or.inr (Or.inr (Or.inr (Or.inr h)))))⟩
  | str s => exact ⟨'"', _, rfl, Or.inr (Or.inl rfl)⟩
  | list xs => exact ⟨'[', _, rfl, Or.inr (Or.inr (Or.inl rfl))⟩
  | obj kvs => exact ⟨'{', _, rfl, Or.inr (Or.inr (Or.inr (Or.inl rfl)))⟩

theorem skipWs_cons_false {c : Char} (cs : List Char) (h : wsChar c = false) :
    skipWs (c :: cs) = c :: cs := by
  rw [skipWs]
  simp [h]

theorem skipWs_cons_true {c : Char} (cs : List Char) (h : wsChar c = true) :
    skipWs (c :: cs) = skipWs cs := by
  rw [skipWs]
  simp [h]

theorem skipWs_printVal (v : Val) (x : List Char) :
    skipWs (printVal v ++ x) = printVal v ++ x := by
  obtain ⟨c, t, h1, h2⟩ := printVal_head v
  rw [h1, List.cons_append, skipWs_cons_false _ (headStartOk_facts h2).1]

theorem parseVal_ws (fuel : Nat) {c : Char} (cs : List Char) (h : wsChar c = true) :
    parseVal fuel (c :: cs) = parseVal fuel cs := by
  cases fuel with
  | zero => rfl
  | succ f =>
    rw [parseVal, parseVal, skipWs_cons_true _ h]

theorem parseElems_ws (fuel : Nat) {c : Char} (cs : List Char) (h : wsChar c = true) :
    parseElems fuel (c :: cs) = parseElems fuel cs := by
  cases fuel with
  | zero => rfl
  | succ f =>
    rw [parseElems, parseElems, parseVal_ws f _ h]


/-! ## The codec round-trip -/

theorem headStartOk_of_num {c : Char} (h : c = '-' ∨ c.isDigit = true) :
    wsChar c = false ∧ c ≠ 'n' ∧ c ≠ '"' ∧ c ≠ '[' ∧ c ≠ '{' := by
  rcases h with h | h
  · subst h; exact ⟨by decide, by decide, by decide, by decide, by decide⟩
  · have hh := isDigit_ne h
    exact ⟨hh.2.2.2.2.2.2.1, hh.2.2.1, hh.2.2.2.1, hh.2.2.2.2.1, hh.2.2.2.2.2.1⟩

theorem printElems_single (v : Val) : printElems [v] = printVal v := rfl

theorem printElems_cons2 (v w : Val) (ws : List Val) :
    printElems (v :: w :: ws) = printVal v ++ ',' :: ' ' :: printElems (w :: ws) := rfl

theorem printMembers_single (kv : String × Val) :
    printMembers [kv] = '"' :: (escape kv.1.data ++ '"' :: ':' :: ' ' :: printVal kv.2) := rfl

theorem printMembers_cons2 (kv kw : String × Val) (ms : List (String × Val)) :
    printMembers (kv :: kw :: ms) =
      ('"' :: (escape kv.1.data ++ '"' :: ':' :: ' ' :: printVal kv.2)) ++
        ',' :: ' ' :: printMembers (kw :: ms) := rfl

theorem printElems_head (x : Val) (xs : List Val) :
    ∃ c t, printElems (x :: xs) = c :: t ∧ headStartOk c := by
  obtain ⟨c, t, hct, hc⟩ := printVal_head x
  cases xs with
  | nil => exact ⟨c, t, by rw [printElems_single, hct], hc⟩
  | cons w ws =>
    exact ⟨c, t ++ ',' :: ' ' :: printElems (w :: ws),
      by rw [printElems_cons2, hct, List.cons_append], hc⟩

theorem mk_data (s : String) : String.mk s.data = s := rfl

mutual

theorem rtVal : ∀ (v : Val) (fuel : Nat) (rest : List Char),
    wfVal v = true → (printVal v).length < fuel → sepOk rest →
    parseVal fuel (printVal v ++ rest) = some (v, rest)
  | .null, fuel, rest, _, hf, _ => by
    cases fuel with
    | zero => exact absurd hf (Nat.not_lt_zero _)
    | succ f => rfl
  | .int n, fuel, rest, _, hf, hsep => by
    cases fuel with
    | zero => exact absurd hf (Nat.not_lt_zero _)
    | succ f =>
      obtain ⟨c, t, hct, hc⟩ := intChars_head n
      obtain ⟨hws, hn, hq, hb, hk⟩ := headStartOk_of_num hc
      show parseVal (f + 1) (intChars n ++ rest) = _
      rw [hct, List.cons_append, parseVal, skipWs_cons_false _ hws]
      simp only [if_neg hn, if_neg hq, if_neg hb, if_neg hk]
      rw [← List.cons_append, ← hct]
      exact parseNumber_intChars n rest hsep
  | .float m e, fuel, rest, hwf, hf, hsep => by
    cases fuel with
    | zero => exact absurd hf (Nat.not_lt_zero _)
    | succ f =>
      have he : 1 ≤ e := by
        have hd : decide (1 ≤ e) = true := hwf
        exact of_decide_eq_true hd
      obtain ⟨c, t, hct, hc⟩ := floatChars_head m e
      obtain ⟨hws, hn, hq, hb, hk⟩ := headStartOk_of_num hc
      show parseVal (f + 1) (floatChars m e ++ rest) = _
      rw [hct, List.cons_append, parseVal, skipWs_cons_false _ hws]
      simp only [if_neg hn, if_neg hq, if_neg hb, if_neg hk]
      rw [← List.cons_append, ← hct]
      exact parseNumber_floatChars m e he rest hsep
  | .str s, fuel, rest, _, hf, _ => by
    cases fuel with
    | zero => exact absurd hf (Nat.not_lt_zero _)
    | succ f =>
      show parseVal (f + 1) (('"' :: (escape s.data ++ ['"'])) ++ rest) = _
      rw [List.cons_append, List.append_assoc]
      show parseVal (f + 1) ('"' :: (escape s.data ++ ('"' :: rest))) = _
      rw [parseVal, skipWs_cons_false _ (by decide)]
      show (parseStrBody (escape s.data ++ ('"' :: rest))).map
          (fun p => (Val.str (String.mk p.1), p.2)) = some (.str s, rest)
      rw [parseStrBody_escape s.data rest]
      rfl
  | .list [], fuel, rest, _, hf, _ => by
    cases fuel with
    | zero => exact absurd hf (Nat.not_lt_zero _)
    | succ f => rfl
  | .list (x :: xs), fuel, rest, hwf, hf, _ => by
    cases fuel with
    | zero => exact absurd hf (Nat.not_lt_zero _)
    | succ f =>
      obtain ⟨c, t, hct, hc⟩ := printElems_head x xs
      obtain ⟨hws, hrb, _, _⟩ := headStartOk_facts hc
      have hpv : (printVal (Val.list (x :: xs))).length = (printElems (x :: xs)).length + 2 := by
        show ('[' :: (printElems (x :: xs) ++ [']'])).length = _
        simp only [List.length_cons, List.length_append, List.length_nil]
      have hlen : (printElems (x :: xs)).length + 1 < f := by omega
      show parseVal (f + 1) (('[' :: (printElems (x :: xs) ++ [']'])) ++ rest) = _
      rw [List.cons_append, List.append_assoc]
      show parseVal (f + 1) ('[' :: (printElems (x :: xs) ++ (']' :: rest))) = _
      rw [parseVal, skipWs_cons_false _ (by decide)]
      show (match skipWs (printElems (x :: xs) ++ (']' :: rest)) with
        | [] => none
        | c1 :: r1 =>
          if c1 = ']' then some (Val.list [], r1)
          else (parseElems f (c1 :: r1)).map (fun (p : List Val × List Char) => (Val.list p.1, p.2))) = _
      rw [hct, List.cons_append, skipWs_cons_false _ hws]
      simp only [if_neg hrb]
      rw [← List.cons_append, ← hct, rtElems x xs f rest hwf hlen]
      rfl
  | .obj [], fuel, rest, _, hf, _ => by
    cases fuel with
    | zero => exact absurd hf (Nat.not_lt_zero _)
    | succ f => rfl
  | .obj (kv :: ms), fuel, rest, hwf, hf, _ => by
    cases fuel with
    | zero => exact absurd hf (Nat.not_lt_zero _)
    | succ f =>
      have hwm : wfMembers (kv :: ms) = true := by
        have hsplit : (keysOk ((kv :: ms).map Prod.fst) && wfMembers (kv :: ms)) = true := hwf
        exact (Bool.and_eq_true_iff.mp hsplit).2
      have hpv : (printVal (Val.obj (kv :: ms))).length = (printMembers (kv :: ms)).length + 2 := by
        show ('{' :: (printMembers (kv :: ms) ++ ['}'])).length = _
        simp only [List.length_cons, List.length_append, List.length_nil]
      have hlen : (printMembers (kv :: ms)).length + 1 < f := by omega
      have hpm : ∃ t, printMembers (kv :: ms) = '"' :: t := by
        cases ms with
        | nil => exact ⟨_, printMembers_single kv⟩
        | cons kw ms' => exact ⟨_, by rw [printMembers_cons2, List.cons_append]⟩
      obtain ⟨pt, hpt⟩ := hpm
      show parseVal (f + 1) (('{' :: (printMembers (kv :: ms) ++ ['}'])) ++ rest) = _
      rw [List.cons_append, List.append_assoc]
      show parseVal (f + 1) ('{' :: (printMembers (kv :: ms) ++ ('}' :: rest))) = _
      rw [parseVal, skipWs_cons_false _ (by decide)]
      show (match skipWs (printMembers (kv :: ms) ++ ('}' :: rest)) with
        | [] => none
        | c1 :: r1 =>
          if c1 = '}' then some (Val.obj [], r1)
          else (parseMembers f (c1 :: r1)).map (fun (p : List (String × Val) × List Char) => (Val.obj p.1, p.2))) = _
      rw [hpt, List.cons_append, skipWs_cons_false _ (by decide)]
      simp only [reduceIte]
      rw [← List.cons_append, ← hpt, rtMembers kv ms f rest hwm hlen]
      rfl
termination_by v _ _ _ _ _ => sizeOf v

theorem rtElems : ∀ (x : Val) (xs : List Val) (fuel : Nat) (rest : List Char),
    wfList (x :: xs) = true → (printElems (x :: xs)).length + 1 < fuel →
    parseElems fuel (printElems (x :: xs) ++ ']' :: rest) = some (x :: xs, rest)
  | x, [], fuel, rest, hwf, hf => by
    cases fuel with
    | zero => exact absurd hf (Nat.not_lt_zero _)
    | succ f =>
      have hwx : wfVal x = true := (Bool.and_eq_true_iff.mp hwf).1
      have h1 : (printElems [x]).length = (printVal x).length := by rw [printElems_single]
      have hlen : (printVal x).length < f := by omega
      rw [printElems_single, parseElems,
        rtVal x f (']' :: rest) hwx hlen (Or.inr (Or.inl rfl))]
      rfl
  | x, y :: ys, fuel, rest, hwf, hf => by
    cases fuel with
    | zero => exact absurd hf (Nat.not_lt_zero _)
    | succ f =>
      have hwx : wfVal x = true := (Bool.and_eq_true_iff.mp hwf).1
      have hwys : wfList (y :: ys) = true := (Bool.and_eq_true_iff.mp hwf).2
      have hflen : (printElems (x :: y :: ys)).length =
          (printVal x).length + 2 + (printElems (y :: ys)).length := by
        rw [printElems_cons2]
        simp only [List.length_append, List.length_cons]
        omega
      have hlx : (printVal x).length < f := by omega
      have hly : (printElems (y :: ys)).length + 1 < f := by omega
      rw [printElems_cons2, List.append_assoc, List.cons_append, List.cons_append, parseElems,
        rtVal x f (',' :: ' ' :: (printElems (y :: ys) ++ ']' :: rest)) hwx hlx (Or.inl rfl)]
      show (parseElems f (' ' :: (printElems (y :: ys) ++ ']' :: rest))).map
          (fun p => (x :: p.1, p.2)) = some (x :: y :: ys, rest)
      rw [parseElems_ws f _ (by decide), rtElems y ys f rest hwys hly]
      rfl
termination_by x xs _ _ _ _ => sizeOf x + sizeOf xs

theorem rtMembers : ∀ (kv : String × Val) (ms : List (String × Val)) (fuel : Nat)
    (rest : List Char),
    wfMembers (kv :: ms) = true → (printMembers (kv :: ms)).length + 1 < fuel →
    parseMembers fuel (printMembers (kv :: ms) ++ '}' :: rest) = some (kv :: ms, rest)
  | (k, v), [], fuel, rest, hwf, hf => by
    cases fuel with
    | zero => exact absurd hf (Nat.not_lt_zero _)
    | succ f =>
      have hwx : wfVal v = true := (Bool.and_eq_true_iff.mp hwf).1
      have hmlen : (printMembers [(k, v)]).length = (escape k.data).length + 4 +
          (printVal v).length := by
        rw [printMembers_single]
        simp only [List.length_cons, List.length_append]
        omega
      have hlen : (printVal v).length < f := by omega
      rw [printMembers_single, parseMembers]
      rw [List.cons_append, skipWs_cons_false _ (by decide)]
      show (match parseStrBody (escape k.data ++ '"' :: ':' :: ' ' :: printVal v ++ '}' :: rest) with
        | none => none
        | some (k, r) =>
          match skipWs r with
          | ':' :: r1 =>
            match parseVal f r1 with
            | none => none
            | some (v, r2) =>
              match skipWs r2 with
              | ',' :: r3 => (parseMembers f r3).map (fun (p : List (String × Val) × List Char) => ((String.mk k, v) :: p.1, p.2))
              | '}' :: r3 => some ([(String.mk k, v)], r3)
              | _ => none
          | _ => none) = _
      rw [List.append_assoc]
      rw [show ('"' :: ':' :: ' ' :: printVal v ++ '}' :: rest) =
        ('"' :: (':' :: ' ' :: printVal v ++ '}' :: rest)) from rfl]
      rw [parseStrBody_escape k.data]
      show (match skipWs (':' :: ' ' :: printVal v ++ '}' :: rest) with
        | ':' :: r1 =>
          match parseVal f r1 with
          | none => none
          | some (v, r2) =>
            match skipWs r2 with
            | ',' :: r3 => (parseMembers f r3).map (fun (p : List (String × Val) × List Char) => ((String.mk k.data, v) :: p.1, p.2))
            | '}' :: r3 => some ([(String.mk k.data, v)], r3)
            | _ => none
        | _ => none) = _
      rw [List.cons_append, skipWs_cons_false _ (by decide)]
      show (match parseVal f (' ' :: (printVal v ++ '}' :: rest)) with
        | none => none
        | some (v, r2) =>
          match skipWs r2 with
          | ',' :: r3 => (parseMembers f r3).map (fun (p : List (String × Val) × List Char) => ((String.mk k.data, v) :: p.1, p.2))
          | '}' :: r3 => some ([(String.mk k.data, v)], r3)
          | _ => none) = _
      rw [parseVal_ws f _ (by decide),
        rtVal v f ('}' :: rest) hwx hlen (Or.inr (Or.inr rfl))]
      show some ([(String.mk k.data, v)], rest) = some ([(k, v)], rest)
      rw [mk_data]
  | (k, v), kw :: ms', fuel, rest, hwf, hf => by
    cases fuel with
    | zero => exact absurd hf (Nat.not_lt_zero _)
    | succ f =>
      have hwx : wfVal v = true := (Bool.and_eq_true_iff.mp hwf).1
      have hwms : wfMembers (kw :: ms') = true := (Bool.and_eq_true_iff.mp hwf).2
      have hmlen : (printMembers ((k, v) :: kw :: ms')).length = (escape k.data).length + 4 +
          (printVal v).length + 2 + (printMembers (kw :: ms')).length := by
        rw [printMembers_cons2]
        simp only [List.length_cons, List.length_append]
        omega
      have hlx : (printVal v).length < f := by omega
      have hlm : (printMembers (kw :: ms')).length + 1 < f := by omega
      rw [printMembers_cons2, parseMembers]
      rw [List.append_assoc, List.cons_append, List.cons_append, skipWs_cons_false _ (by decide)]
      show (match parseStrBody (escape k.data ++ '"' :: ':' :: ' ' :: printVal v ++
          (',' :: ' ' :: printMembers (kw :: ms') ++ '}' :: rest)) with
        | none => none
        | some (k, r) =>
          match skipWs r with
          | ':' :: r1 =>
            match parseVal f r1 with
            | none => none
            | some (v, r2) =>
              match skipWs r2 with
              | ',' :: r3 => (parseMembers f r3).map (fun (p : List (String × Val) × List Char) => ((String.mk k, v) :: p.1, p.2))
              | '}' :: r3 => some ([(String.mk k, v)], r3)
              | _ => none
          | _ => none) = _
      rw [List.append_assoc]
      rw [show ('"' :: ':' :: ' ' :: printVal v ++
          (',' :: ' ' :: printMembers (kw :: ms') ++ '}' :: rest)) =
        ('"' :: (':' :: ' ' :: printVal v ++
          (',' :: ' ' :: printMembers (kw :: ms') ++ '}' :: rest))) from rfl]
      rw [parseStrBody_escape k.data]
      show (match skipWs (':' :: ' ' :: printVal v ++
          (',' :: ' ' :: printMembers (kw :: ms') ++ '}' :: rest)) with
        | ':' :: r1 =>
          match parseVal f r1 with
          | none => none
          | some (v, r2) =>
            match skipWs r2 with
            | ',' :: r3 => (parseMembers f r3).map (fun (p : List (String × Val) × List Char) => ((String.mk k.data, v) :: p.1, p.2))
            | '}' :: r3 => some ([(String.mk k.data, v)], r3)
            | _ => none
        | _ => none) = _
      rw [List.cons_append, skipWs_cons_false _ (by decide)]
      show (match parseVal f (' ' :: (printVal v ++
          (',' :: ' ' :: printMembers (kw :: ms') ++ '}' :: rest))) with
        | none => none
        | some (v, r2) =>
          match skipWs r2 with
          | ',' :: r3 => (parseMembers f r3).map (fun (p : List (String × Val) × List Char) => ((String.mk k.data, v) :: p.1, p.2))
          | '}' :: r3 => some ([(String.mk k.data, v)], r3)
          | _ => none) = _
      rw [parseVal_ws f _ (by decide),
        rtVal v f (',' :: ' ' :: printMembers (kw :: ms') ++ '}' :: rest) hwx hlx
          (by rw [List.cons_append]; exact Or.inl rfl)]
      show (parseMembers f (' ' :: (printMembers (kw :: ms') ++ '}' :: rest))).map
          (fun p => ((String.mk k.data, v) :: p.1, p.2)) = _
      have hpmw : parseMembers f (' ' :: (printMembers (kw :: ms') ++ '}' :: rest)) =
          parseMembers f (printMembers (kw :: ms') ++ '}' :: rest) := by
        cases f with
        | zero => rfl
        | succ g =>
          rw [parseMembers, parseMembers, skipWs_cons_true _ (by decide)]
      rw [hpmw, rtMembers kw ms' f rest hwms hlm]
      show some ((String.mk k.data, v) :: kw :: ms', rest) = _
      rw [mk_data]
termination_by kv ms _ _ _ _ => sizeOf kv + sizeOf ms

end


/-! ## Top-level codec facts -/

theorem parseJson_printJson (v : Val) (h : wfVal v = true) :
    parseJson (printJson v) = some v := by
  rw [parseJson, printJson]
  have hdata : (String.mk (printVal v)).data = printVal v := rfl
  rw [hdata]
  have hlen : (printVal v).length < 2 * (printVal v).length + 2 := by omega
  have hrt := rtVal v (2 * (printVal v).length + 2) [] h hlen trivial
  rw [List.append_nil] at hrt
  rw [hrt]
  rfl

/-- Is the value list- or mapping-shaped (the specification's Composite)? -/
def isComposite : Val → Bool
  | .list _ => true
  | .obj _ => true
  | _ => false

theorem serialize_composite (v : Val) (h : isComposite v = true) :
    serialize v = .str (printJson v) := by
  cases v <;> first | rfl | exact absurd h (by simp [isComposite])

theorem serialize_not_composite (v : Val) (h : isComposite v = false) :
    serialize v = v := by
  cases v <;> first | rfl | exact absurd h (by simp [isComposite])

theorem deserialize_str (s : String) :
    deserialize (.str s) = (match parseJson s with | some v => v | none => .str s) := rfl

theorem deserialize_not_str (v : Val) (h : ∀ s, v ≠ .str s) : deserialize v = v := by
  cases v <;> first | rfl | exact absurd rfl (h _)

theorem grabDigits_cons (c : Char) (cs : List Char) :
    grabDigits (c :: cs) =
      if c.isDigit then (c :: (grabDigits cs).1, (grabDigits cs).2) else ([], c :: cs) := rfl

/-- A number literal cannot begin with a character that is neither a digit
nor a minus sign. -/
theorem parseNumber_noDigit (c : Char) (cs : List Char)
    (hd : c.isDigit = false) (hm : c ≠ '-') : parseNumber (c :: cs) = none := by
  have hg : grabDigits (c :: cs) = ([], c :: cs) := by
    rw [grabDigits_cons]
    rw [hd]
    rfl
  simp only [parseNumber, List.head?_cons, Option.some.injEq, hm, decide_eq_true_eq,
    decide_eq_false, if_false, Bool.false_eq_true, hg]
  rfl

/-- The model parser rejects any input whose first character is outside
`jsonStart`, just as `json.loads` fails on such input at its first token. -/
theorem parseVal_notStart (fuel : Nat) (c : Char) (cs : List Char)
    (h : jsonStart c = false) : parseVal fuel (c :: cs) = none := by
  have h' := h
  simp only [jsonStart, Bool.or_eq_false_iff, decide_eq_false_iff_not] at h'
  obtain ⟨⟨⟨⟨⟨⟨⟨⟨⟨⟨hws, hd⟩, hm⟩, hq⟩, hb⟩, hk⟩, _⟩, _⟩, hn⟩, _⟩, _⟩ := h'
  cases fuel with
  | zero => rfl
  | succ f =>
    rw [parseVal, skipWs_cons_false _ hws]
    simp only [if_neg hn, if_neg hq, if_neg hb, if_neg hk]
    exact parseNumber_noDigit c cs hd hm

/-- `deserialize` is provably the identity on safe text: the model parser
rejects it (as `json.loads` does). -/
theorem parseJson_safe (s : String) (h : safeText s = true) : parseJson s = none := by
  cases hs : s.data with
  | nil =>
    rw [parseJson, hs]
    rfl
  | cons c cs =>
    have hjs : jsonStart c = false := by
      have h2 : (!(jsonStart c)) = true := by
        have h3 : safeHead s.data = true := h
        rw [hs] at h3
        exact h3
      exact Eq.mp (Bool.not_eq_true' (jsonStart c)) h2
    rw [parseJson, hs, parseVal_notStart _ c cs hjs]

theorem deserialize_serialize (v : Val) (hwf : wfVal v = true) (hc : isComposite v = true) :
    deserialize (serialize v) = v := by
  rw [serialize_composite v hc, deserialize_str, parseJson_printJson v hwf]


/-! ## Claims about the value codec -/

/-- C3: for every composite (list- or mapping-shaped) value — and also for
`None` and the empty list/mapping — decoding the encoding is the identity:
`deserialize (serialize v) = v`.  `wfVal` restricts `Val` to the image of
actual Python values (canonical float representations, distinct dict keys). -/
theorem claim_C3 (v : Val) (hwf : wfVal v = true) (hc : isComposite v = true ∨ v = .null) :
    deserialize (serialize v) = v := by
  rcases hc with hc | hc
  · exact deserialize_serialize v hwf hc
  · subst hc; rfl

theorem claim_C3_witness :
    (wfVal (.list [.int (-12), .float 305 1, .str "a\"b", .obj [("k", .null)], .list []]) = true ∧
      isComposite (.list [.int (-12), .float 305 1, .str "a\"b", .obj [("k", .null)], .list []]) = true) ∧
    deserialize (serialize (.list [.int (-12), .float 305 1, .str "a\"b", .obj [("k", .null)], .list []])) =
      .list [.int (-12), .float 305 1, .str "a\"b", .obj [("k", .null)], .list []] :=
  ⟨⟨by decide, by decide⟩, claim_C3 _ (by decide) (Or.inl (by decide))⟩

/-- C5: `deserialize` is total and never raises: for every input it returns
either the parsed structure (for text that parses as JSON) or the input
unchanged — every parse failure, including non-text input, degrades to the
identity. -/
theorem claim_C5 (v : Val) :
    deserialize v = v ∨ ∃ s j, v = .str s ∧ parseJson s = some j ∧ deserialize v = j := by
  cases v with
  | str s =>
    cases hp : parseJson s with
    | none => exact Or.inl (by rw [deserialize_str, hp])
    | some j => exact Or.inr ⟨s, j, rfl, hp, by rw [deserialize_str, hp]⟩
  | null => exact Or.inl rfl
  | int n => exact Or.inl rfl
  | float m e => exact Or.inl rfl
  | list xs => exact Or.inl rfl
  | obj kvs => exact Or.inl rfl

/-! ## Claims about Row, Table -/

/-- C2: `add_row` is atomic — whenever it reports an error (any of the three
validation failures), the post-call table is exactly the pre-call table, so
no `Row` is appended by a failing call. -/
theorem claim_C2 (t : Table) (kwargs : List (String × Val)) (e : DBError)
    (h : (t.add_row kwargs).2 = some e) : (t.add_row kwargs).1 = t := by
  rw [Table.add_row] at h ⊢
  by_cases hl : kwargs.length ≠ t.fields.length
  · rw [if_pos hl]
  · rw [if_neg hl] at h ⊢
    cases hc : checkKwargs t.fields kwargs with
    | some e2 => rfl
    | none => rw [hc] at h; simp at h

theorem claim_C2_witness :
    (Table.add_row ⟨"t", [⟨"a", .int⟩], []⟩ [("a", .str "x")]).2 = some DBError.typeMismatch ∧
    (Table.add_row ⟨"t", [⟨"a", .int⟩], []⟩ [("a", .str "x")]).1 = ⟨"t", [⟨"a", .int⟩], []⟩ :=
  ⟨rfl, claim_C2 ⟨"t", [⟨"a", .int⟩], []⟩ [("a", .str "x")] DBError.typeMismatch rfl⟩

/-- C7 is corrected: its universal statement fails at the empty-string field
name.  For a row without an `''` key, the name `''` is absent from the stored
values, yet `Row.get` returns the full decoded mapping instead of failing
with `FieldNotFound`, because `''` is the sentinel for "all fields". -/
theorem claim_C7_counterexample :
    listLookup (Row.mk [("a", Val.int 1)]).fields "" = none ∧
    Row.get (Row.mk [("a", Val.int 1)]) "" = .ok (.obj [("a", .int 1)]) := ⟨rfl, rfl⟩

/-- C7 (amended): for every Row and every nonempty field name absent from the
stored values, `Row.get` fails with `FieldNotFound` — never a silent
default. -/
theorem claim_C7 (r : Row) (name : String) (hne : name ≠ "")
    (habs : listLookup r.fields name = none) :
    r.get name = .error .fieldNotFound := by
  rw [Row.get, if_neg hne, habs]

theorem claim_C7_witness :
    (("b" : String) ≠ "" ∧ listLookup (Row.mk [("a", Val.int 1)]).fields "b" = none) ∧
    Row.get (Row.mk [("a", Val.int 1)]) "b" = .error .fieldNotFound :=
  ⟨⟨by decide, rfl⟩, claim_C7 (Row.mk [("a", Val.int 1)]) "b" (by decide) rfl⟩

/-- C10: calling `Row.get` with the default empty-string name never raises
and returns the fresh decoded mapping of every stored field — even when no
field is stored under `''`; consequently a value stored under `''` can never
be retrieved individually, because `get ''` always returns the mapping. -/
theorem claim_C10 (r : Row) : r.get "" = .ok (.obj (Row.get_all r)) := by
  rw [Row.get, if_pos rfl]
  rfl


/-- C8: `find` returns exactly the rows satisfying the predicate in their
original relative order; a positive `amount` truncates to the first that
many matches, and `amount = 0` returns all matches. -/
theorem claim_C8 (t : Table) (cond : Row → Bool) :
    t.find cond 0 = t.rows.filter cond ∧
    ∀ n : Int, 0 < n → t.find cond n = (t.rows.filter cond).take n.toNat := by
  constructor
  · rw [Table.find]
    norm_num
  · intro n hn
    rw [Table.find]
    simp only [if_pos (by omega : n > 0)]

theorem claim_C8_witness :
    (0 : Int) < 2 ∧
    Table.find ⟨"t", [⟨"a", .int⟩],
        [Row.mk [("a", Val.int 1)], Row.mk [("a", Val.int 2)], Row.mk [("a", Val.int 3)],
          Row.mk [("a", Val.int 4)], Row.mk [("a", Val.int 5)]]⟩ (fun _ => true) 2 =
      [Row.mk [("a", Val.int 1)], Row.mk [("a", Val.int 2)]] := by
  refine ⟨by decide, ?_⟩
  rw [(claim_C8 ⟨"t", [⟨"a", .int⟩],
    [Row.mk [("a", Val.int 1)], Row.mk [("a", Val.int 2)], Row.mk [("a", Val.int 3)],
      Row.mk [("a", Val.int 4)], Row.mk [("a", Val.int 5)]]⟩ (fun _ => true)).2 2 (by decide)]
  rfl

/-- C9: `delete_fields` removes every listed name from the schema and from
every row (unknown names are no-ops), so afterwards no row returned by
`find` carries a deleted name in its decoded mapping. -/
theorem claim_C9 (t : Table) (names : List String) :
    (∀ f ∈ (t.delete_fields names).fields, f.name ∉ names) ∧
    (∀ (cond : Row → Bool) (amount : Int), ∀ r ∈ (t.delete_fields names).find cond amount,
      ∀ n ∈ names, n ∉ (Row.get_all r).map Prod.fst) := by
  constructor
  · intro f hf
    rw [Table.delete_fields] at hf
    simp only [List.mem_filter, Bool.not_eq_true'] at hf
    intro hmem
    have hc : names.contains f.name = true := List.elem_eq_true_of_mem hmem
    rw [hf.2] at hc
    cases hc
  · intro cond amount r hr n hn
    have hrows : r ∈ (t.delete_fields names).rows := by
      rw [Table.find] at hr
      by_cases ha : amount > 0
      · rw [if_pos ha] at hr
        exact List.mem_of_mem_filter (List.mem_of_mem_take hr)
      · rw [if_neg ha] at hr
        exact List.mem_of_mem_filter hr
    rw [Table.delete_fields] at hrows
    simp only [List.mem_map] at hrows
    obtain ⟨r0, _, hreq⟩ := hrows
    intro hmem
    rw [Row.get_all] at hmem
    rw [← hreq] at hmem
    simp only [List.map_map] at hmem
    simp only [List.mem_map] at hmem
    obtain ⟨kv, hkv, hkveq⟩ := hmem
    simp only [List.mem_filter, Bool.not_eq_true'] at hkv
    have : names.contains n = false := by
      have h1 := hkv.2
      simp only [Function.comp] at hkveq
      rw [hkveq] at h1
      exact h1
    have hc : names.contains n = true := List.elem_eq_true_of_mem hn
    rw [this] at hc
    cases hc

theorem claim_C9_witness :
    ((Field.mk "a" PyType.int).name ∉ ["b"]) ∧
    ("b" ∉ (Row.get_all (Row.mk [("a", Val.int 1)])).map Prod.fst) := by
  constructor
  · exact (claim_C9 ⟨"t", [⟨"a", .int⟩, ⟨"b", .int⟩], [⟨[("a", .int 1), ("b", .int 2)]⟩]⟩ ["b"]).1
      (Field.mk "a" PyType.int) (by exact List.mem_singleton.mpr rfl)
  · have hfind : Table.find
        (Table.delete_fields ⟨"t", [⟨"a", .int⟩, ⟨"b", .int⟩], [⟨[("a", .int 1), ("b", .int 2)]⟩]⟩ ["b"])
        (fun _ => true) 0 = [Row.mk [("a", Val.int 1)]] := rfl
    exact (claim_C9 ⟨"t", [⟨"a", .int⟩, ⟨"b", .int⟩], [⟨[("a", .int 1), ("b", .int 2)]⟩]⟩ ["b"]).2
      (fun _ => true) 0 (Row.mk [("a", Val.int 1)])
      (by rw [hfind]; exact List.mem_singleton.mpr rfl) "b" (List.mem_singleton.mpr rfl)


/-! ## Stored values: what a Row can hold per declared field type -/

/-- The semantic type `load` infers for the column kind that `save` derives
from a declared type: scalars map to themselves, both composite shapes to
the union type. -/
def typeMap : PyType → PyType
  | .int => .int
  | .float => .float
  | .str => .str
  | .list => .ulistdict
  | .dict => .ulistdict
  | .ulistdict => .ulistdict

/-- The encoded values a Row holds for a field of declared type `ty`, on
the domain where the model codec provably agrees with Python's: an `int`
for Integer, a canonical float for Float, text that cannot begin a JSON
document (`safeText`, on which `json.loads` and the model parser both fail)
for Text, and the canonical printable-ASCII JSON encoding of a well-formed
composite (on which the model printer and parser coincide with `json.dumps`
and `json.loads`) for Composite fields. -/
def storedOk : PyType → Val → Bool
  | .int, .int _ => true
  | .float, .float _ e => decide (1 ≤ e)
  | .str, .str s => safeText s
  | .list, .str s =>
    (match parseJson s with
    | some (Val.list xs) =>
      wfVal (.list xs) && asciiVal (.list xs) && decide (printJson (.list xs) = s)
    | _ => false)
  | .dict, .str s =>
    (match parseJson s with
    | some (Val.obj kvs) =>
      wfVal (.obj kvs) && asciiVal (.obj kvs) && decide (printJson (.obj kvs) = s)
    | _ => false)
  | _, _ => false

theorem storedOk_facts (ty : PyType) (e : Val) (h : storedOk ty e = true) :
    serialize e = e ∧ isinstanceOf (deserialize e) (typeMap ty) = true ∧
      serialize (deserialize e) = e := by
  cases ty with
  | int =>
    cases e with
    | int n => exact ⟨rfl, rfl, rfl⟩
    | null => exact Bool.noConfusion h
    | float m e2 => exact Bool.noConfusion h
    | str s => exact Bool.noConfusion h
    | list xs => exact Bool.noConfusion h
    | obj kvs => exact Bool.noConfusion h
  | float =>
    cases e with
    | float m e2 => exact ⟨rfl, rfl, rfl⟩
    | null => exact Bool.noConfusion h
    | int n => exact Bool.noConfusion h
    | str s => exact Bool.noConfusion h
    | list xs => exact Bool.noConfusion h
    | obj kvs => exact Bool.noConfusion h
  | str =>
    cases e with
    | str s =>
      have h2 : safeText s = true := h
      have hp : parseJson s = none := parseJson_safe s h2
      refine ⟨rfl, ?_, ?_⟩
      · rw [deserialize_str, hp]
        rfl
      · rw [deserialize_str, hp]
        rfl
    | null => exact Bool.noConfusion h
    | int n => exact Bool.noConfusion h
    | float m e2 => exact Bool.noConfusion h
    | list xs => exact Bool.noConfusion h
    | obj kvs => exact Bool.noConfusion h
  | list =>
    cases e with
    | str s =>
      have h2 : (match parseJson s with
        | some (Val.list xs) =>
          wfVal (.list xs) && asciiVal (.list xs) && decide (printJson (.list xs) = s)
        | _ => false) = true := h
      cases hp : parseJson s with
      | none => rw [hp] at h2; exact Bool.noConfusion h2
      | some j =>
        rw [hp] at h2
        cases j with
        | list xs =>
          have hand := Bool.and_eq_true_iff.mp h2
          have hps : printJson (.list xs) = s := of_decide_eq_true hand.2
          refine ⟨rfl, ?_, ?_⟩
          · rw [deserialize_str, hp]
            rfl
          · rw [deserialize_str, hp]
            show serialize (.list xs) = Val.str s
            rw [serialize, hps]
        | null => exact Bool.noConfusion h2
        | int n => exact Bool.noConfusion h2
        | float m e2 => exact Bool.noConfusion h2
        | str s2 => exact Bool.noConfusion h2
        | obj kvs => exact Bool.noConfusion h2
    | null => exact Bool.noConfusion h
    | int n => exact Bool.noConfusion h
    | float m e2 => exact Bool.noConfusion h
    | list xs => exact Bool.noConfusion h
    | obj kvs => exact Bool.noConfusion h
  | dict =>
    cases e with
    | str s =>
      have h2 : (match parseJson s with
        | some (Val.obj kvs) =>
          wfVal (.obj kvs) && asciiVal (.obj kvs) && decide (printJson (.obj kvs) = s)
        | _ => false) = true := h
      cases hp : parseJson s with
      | none => rw [hp] at h2; exact Bool.noConfusion h2
      | some j =>
        rw [hp] at h2
        cases j with
        | obj kvs =>
          have hand := Bool.and_eq_true_iff.mp h2
          have hps : printJson (.obj kvs) = s := of_decide_eq_true hand.2
          refine ⟨rfl, ?_, ?_⟩
          · rw [deserialize_str, hp]
            rfl
          · rw [deserialize_str, hp]
            show serialize (.obj kvs) = Val.str s
            rw [serialize, hps]
        | null => exact Bool.noConfusion h2
        | int n => exact Bool.noConfusion h2
        | float m e2 => exact Bool.noConfusion h2
        | str s2 => exact Bool.noConfusion h2
        | list xs => exact Bool.noConfusion h2
    | null => exact Bool.noConfusion h
    | int n => exact Bool.noConfusion h
    | float m e2 => exact Bool.noConfusion h
    | list xs => exact Bool.noConfusion h
    | obj kvs => exact Bool.noConfusion h
  | ulistdict =>
    cases e with
    | null => exact Bool.noConfusion h
    | int n => exact Bool.noConfusion h
    | float m e2 => exact Bool.noConfusion h
    | str s => exact Bool.noConfusion h
    | list xs => exact Bool.noConfusion h
    | obj kvs => exact Bool.noConfusion h

/-! ## Claim C6 -/

/-- C6 is corrected: the claim fails for a stored text value that parses as
JSON.  A Row can hold `"3"` (it is `serialize "3"`, stored by `add_row` for
a Text field), the code writes `serialize "3" = "3"`, but the
specification's decode-then-re-encode writes `serialize (deserialize "3") =
3`. -/
theorem claim_C6_counterexample :
    Val.str "3" = serialize (Val.str "3") ∧
    serialize (deserialize (Val.str "3")) = Val.int 3 ∧
    serialize (Val.str "3") ≠ serialize (deserialize (Val.str "3")) := by
  refine ⟨rfl, rfl, ?_⟩
  intro h
  rw [show serialize (deserialize (Val.str "3")) = Val.int 3 from rfl,
    show serialize (Val.str "3") = Val.str "3" from rfl] at h
  exact Val.noConfusion h

/-- C6 (amended): for every value a Row holds for a declared field type on
the domain where the model codec agrees with Python's — an integer, a
canonical float, text that cannot begin a JSON document, or the canonical
printable-ASCII encoding of a well-formed composite — the value the code
writes, `serialize e`, equals the specification's
`serialize (deserialize e)`. -/
theorem claim_C6 (e : Val) (ty : PyType) (h : storedOk ty e = true) :
    serialize e = serialize (deserialize e) := by
  obtain ⟨h1, _, h3⟩ := storedOk_facts ty e h
  rw [h1, h3]

theorem claim_C6_witness :
    storedOk PyType.list (Val.str "[1, 2]") = true ∧
    serialize (Val.str "[1, 2]") = serialize (deserialize (Val.str "[1, 2]")) :=
  ⟨by decide, claim_C6 (Val.str "[1, 2]") PyType.list (by decide)⟩


/-! ## Well-formed databases and their expected save/load images -/

/-- A row as `add_row` leaves it for this schema: every stored key is a
schema name and every schema field has a stored value fit for its declared
type (see `storedOk`). -/
def rowOk (fields : List Field) (r : Row) : Bool :=
  r.fields.all (fun kv => fields.any (fun f => f.name = kv.1)) &&
  fields.all (fun f =>
    match listLookup r.fields f.name with
    | some v => storedOk f.data_type v
    | none => false)

/-- A table the round-trip claim quantifies over: a nonempty schema of
distinct names whose types are the declarable ones (`Union[list, dict]`
arises only from `load`), with rows as `add_row` built them. -/
def tableOk (t : Table) : Bool :=
  !t.fields.isEmpty &&
  keysOk (t.fields.map Field.name) &&
  t.fields.all (fun f => !(f.data_type == PyType.ulistdict)) &&
  t.rows.all (rowOk t.fields)

/-- A database the round-trip claim quantifies over: distinct table names,
none the engine's reserved `sqlite_sequence`, each table well formed. -/
def dbOk (db : Database) : Bool :=
  keysOk (db.tables.map Prod.fst) &&
  db.tables.all (fun kv => !(kv.1 == "sqlite_sequence") && tableOk kv.2)

/-- The column list `save` derives for a table. -/
def mkCols (t : Table) : List (String × String) :=
  t.fields.map (fun fl => (fl.name, colKind fl.data_type))

/-- The engine-aligned tuple `INSERT` stores for one row. -/
def alignedRow (t : Table) (r : Row) : List Val :=
  (mkCols t).map (fun c =>
    (listLookup (r.fields.map (fun kv => (kv.1, serialize kv.2))) c.1).getD .null)

/-- The persisted image of one table. -/
def mkSTable (t : Table) : STable := ⟨mkCols t, t.rows.map (alignedRow t)⟩

/-- The stored value of a row for a schema field. -/
def origVal (r : Row) (f : Field) : Val := (listLookup r.fields f.name).getD .null

/-- The `Field` that `load`'s type inference reconstructs. -/
def reloadField (f : Field) : Field := ⟨f.name, typeMap f.data_type⟩

/-- The row `load` reconstructs: the same stored values, in schema order. -/
def reloadRow (t : Table) (r : Row) : Row :=
  ⟨t.fields.map (fun f => (f.name, origVal r f))⟩

/-- The table `load` reconstructs under the catalog key `tname`. -/
def reloadTable (tname : String) (t : Table) : Table :=
  ⟨tname, t.fields.map reloadField, t.rows.map (reloadRow t)⟩

/-! ## List helper lemmas -/

theorem listLookup_nil {α : Type} (k : String) : listLookup ([] : List (String × α)) k = none := rfl

theorem listLookup_cons {α : Type} (kv : String × α) (l : List (String × α)) (k : String) :
    listLookup (kv :: l) k = if kv.1 = k then some kv.2 else listLookup l k := by
  rw [listLookup, listLookup]
  by_cases h : kv.1 = k
  · rw [List.find?_cons_of_pos _ (by simp [h]), if_pos h]
    rfl
  · rw [List.find?_cons_of_neg _ (by simp [h]), if_neg h]

theorem listLookup_map_val {α β : Type} (l : List (String × α)) (g : α → β) (k : String) :
    listLookup (l.map (fun kv => (kv.1, g kv.2))) k = (listLookup l k).map g := by
  induction l with
  | nil => rfl
  | cons kv l ih =>
    rw [List.map_cons, listLookup_cons, listLookup_cons]
    by_cases h : kv.1 = k
    · rw [if_pos h, if_pos h]
      rfl
    · rw [if_neg h, if_neg h, ih]

theorem listLookup_map_key {α β : Type} (l : List α) (key : α → String) (val : α → β)
    (k : String) :
    listLookup (l.map (fun a => (key a, val a))) k =
      (l.find? (fun a => key a = k)).map val := by
  induction l with
  | nil => rfl
  | cons a l ih =>
    rw [List.map_cons, listLookup_cons]
    by_cases h : key a = k
    · rw [if_pos h, List.find?_cons_of_pos _ (by simp [h])]
      rfl
    · rw [if_neg h, List.find?_cons_of_neg _ (by simp [h]), ih]

theorem listLookup_isSome_mem {α : Type} (l : List (String × α)) (k : String) (v : α)
    (h : listLookup l k = some v) : (k, v) ∈ l := by
  induction l with
  | nil => exact absurd h (by rw [listLookup_nil]; exact Option.noConfusion)
  | cons kv l ih =>
    rw [listLookup_cons] at h
    by_cases hk : kv.1 = k
    · rw [if_pos hk] at h
      have h2 : kv = (k, v) := by
        cases kv
        simp at hk
        simp at h
        simp [hk, h]
      rw [← h2]
      exact List.mem_cons_self kv l
    · rw [if_neg hk] at h
      exact List.mem_cons_of_mem kv (ih h)

theorem mapM_ok {α β : Type} (g : α → Except DBError β) (g2 : α → β) (l : List α)
    (h : ∀ a ∈ l, g a = .ok (g2 a)) : l.mapM g = .ok (l.map g2) := by
  induction l with
  | nil => rfl
  | cons a l ih =>
    rw [List.mapM_cons, h a (List.mem_cons_self a l),
      ih (fun x hx => h x (List.mem_cons_of_mem a hx))]
    rfl

theorem keysOk_cons (k : String) (ks : List String) :
    keysOk (k :: ks) = (!(ks.contains k) && keysOk ks) := rfl

theorem keysOk_head_not_mem {k : String} {ks : List String} (h : keysOk (k :: ks) = true) :
    k ∉ ks := by
  rw [keysOk_cons] at h
  intro hmem
  have hc : ks.contains k = true := List.elem_eq_true_of_mem hmem
  rw [hc] at h
  exact Bool.noConfusion (Bool.and_eq_true_iff.mp h).1

theorem keysOk_tail {k : String} {ks : List String} (h : keysOk (k :: ks) = true) :
    keysOk ks = true := by
  rw [keysOk_cons] at h
  exact (Bool.and_eq_true_iff.mp h).2


/-! ## Facts about well-formed rows -/

theorem rowOk_keys {fields : List Field} {r : Row} (h : rowOk fields r = true) :
    ∀ kv ∈ r.fields, fields.any (fun f => f.name = kv.1) = true := by
  have h1 := (Bool.and_eq_true_iff.mp h).1
  intro kv hkv
  exact List.all_eq_true.mp h1 kv hkv

theorem rowOk_lookup {fields : List Field} {r : Row} (h : rowOk fields r = true) :
    ∀ f ∈ fields, listLookup r.fields f.name = some (origVal r f) ∧
      storedOk f.data_type (origVal r f) = true := by
  have h2 := (Bool.and_eq_true_iff.mp h).2
  intro f hf
  have hx := List.all_eq_true.mp h2 f hf
  rw [origVal]
  cases hl : listLookup r.fields f.name with
  | none => rw [hl] at hx; exact Bool.noConfusion hx
  | some v =>
    rw [hl] at hx
    exact ⟨by rw [Option.getD_some], by rw [Option.getD_some]; exact hx⟩

/-- The reconstructed, schema-ordered row looks up like the original row. -/
theorem reloadRow_lookup (t : Table) (r : Row) (hr : rowOk t.fields r = true) (nm : String) :
    listLookup (reloadRow t r).fields nm = listLookup r.fields nm := by
  show listLookup (t.fields.map (fun f => (f.name, origVal r f))) nm = _
  rw [listLookup_map_key]
  cases hfind : t.fields.find? (fun f => f.name = nm) with
  | some f =>
    have hf : f ∈ t.fields := List.mem_of_find?_eq_some hfind
    have hname : f.name = nm := by
      have := List.find?_some hfind
      exact of_decide_eq_true this
    show some (origVal r f) = listLookup r.fields nm
    rw [← hname]
    exact ((rowOk_lookup hr f hf).1).symm
  | none =>
    show none = listLookup r.fields nm
    cases hl : listLookup r.fields nm with
    | none => rfl
    | some v =>
      exfalso
      have hmem := listLookup_isSome_mem _ _ _ hl
      have hany := rowOk_keys hr (nm, v) hmem
      obtain ⟨f, hf, hfn⟩ := List.any_eq_true.mp hany
      have hs : (t.fields.find? (fun f => f.name = nm)).isSome = true :=
        List.find?_isSome.mpr ⟨f, hf, hfn⟩
      rw [hfind] at hs
      exact Bool.noConfusion hs


/-! ## The save side -/

theorem alignedRow_eq (t : Table) (r : Row) (h : rowOk t.fields r = true) :
    alignedRow t r = t.fields.map (origVal r) := by
  rw [alignedRow, mkCols, List.map_map]
  apply List.map_congr_left
  intro f hf
  show (listLookup (r.fields.map (fun kv => (kv.1, serialize kv.2))) f.name).getD .null = _
  rw [listLookup_map_val]
  obtain ⟨hl, hst⟩ := rowOk_lookup h f hf
  rw [hl]
  show (serialize (origVal r f)) = origVal r f
  exact (storedOk_facts _ _ hst).1

theorem insertRow_ok (t : Table) (r : Row) (h : rowOk t.fields r = true) :
    insertRow (mkCols t) (r.fields.map (fun kv => (kv.1, serialize kv.2))) =
      .ok (alignedRow t r) := by
  rw [insertRow]
  have hall : (r.fields.map (fun kv => (kv.1, serialize kv.2))).all
      (fun kv => (mkCols t).any (fun c => c.1 = kv.1)) = true := by
    rw [List.all_eq_true]
    intro kv hkv
    rw [List.mem_map] at hkv
    obtain ⟨kv0, hkv0, heq⟩ := hkv
    have hany := rowOk_keys h kv0 hkv0
    obtain ⟨f, hf, hfn⟩ := List.any_eq_true.mp hany
    rw [List.any_eq_true]
    refine ⟨(f.name, colKind f.data_type), ?_, ?_⟩
    · rw [mkCols, List.mem_map]
      exact ⟨f, hf, rfl⟩
    · rw [← heq]
      exact hfn
  rw [if_pos hall]
  rfl

theorem saveTable_ok (f : SqlFile) (tname : String) (t : Table) (h : tableOk t = true) :
    saveTable f tname t =
      .ok ((f.filter (fun q => q.1 ≠ tname)) ++ [(tname, mkSTable t)]) := by
  have h1 := Bool.and_eq_true_iff.mp h
  have h2 := Bool.and_eq_true_iff.mp h1.1
  have h3 := Bool.and_eq_true_iff.mp h2.1
  have hne : t.fields.isEmpty = false := by
    have := h3.1
    cases hx : t.fields.isEmpty
    · rfl
    · rw [hx] at this; exact Bool.noConfusion this
  have hrows := h1.2
  rw [saveTable]
  show (if (t.fields.map (fun fl => (fl.name, colKind fl.data_type))).isEmpty = true then _ else _) = _
  have hce : (t.fields.map (fun fl => (fl.name, colKind fl.data_type))).isEmpty = false := by
    cases hx : t.fields with
    | nil => rw [hx] at hne; exact Bool.noConfusion hne
    | cons a l => rfl
  rw [hce]
  simp only [Bool.false_eq_true, if_false]
  have hmapM : t.rows.mapM (fun r =>
      insertRow (t.fields.map (fun fl => (fl.name, colKind fl.data_type)))
        (r.fields.map (fun kv => (kv.1, serialize kv.2)))) = .ok (t.rows.map (alignedRow t)) := by
    apply mapM_ok
    intro r hr
    have hrok : rowOk t.fields r = true := List.all_eq_true.mp hrows r hr
    exact insertRow_ok t r hrok
  rw [hmapM]
  rfl

theorem save_fold_ok : ∀ (tables : List (String × Table)) (F : SqlFile),
    (∀ q ∈ F, q.1 ∉ tables.map Prod.fst) →
    keysOk (tables.map Prod.fst) = true →
    (∀ p ∈ tables, tableOk p.2 = true) →
    List.foldlM (fun f (p : String × Table) => saveTable f p.1 p.2) F tables =
      .ok (F ++ tables.map (fun p => (p.1, mkSTable p.2))) := by
  intro tables
  induction tables with
  | nil =>
    intro F _ _ _
    rw [List.foldlM_nil, List.map_nil, List.append_nil]
    rfl
  | cons p rest ih =>
    intro F hdisj hkeys hok
    rw [List.foldlM_cons, saveTable_ok F p.1 p.2 (hok p (List.mem_cons_self p rest))]
    have hfilter : F.filter (fun q => q.1 ≠ p.1) = F := by
      apply List.filter_eq_self.mpr
      intro q hq
      have := hdisj q hq
      simp only [List.map_cons, List.mem_cons] at this
      simp only [ne_eq, decide_eq_true_eq]
      intro heq
      exact this (Or.inl heq)
    rw [hfilter]
    show List.foldlM (fun f (p : String × Table) => saveTable f p.1 p.2)
        (F ++ [(p.1, mkSTable p.2)]) rest = _
    rw [ih (F ++ [(p.1, mkSTable p.2)]) ?_ ?_ ?_]
    · rw [List.append_assoc]
      rfl
    · intro q hq
      rcases List.mem_append.mp hq with hq | hq
      · have := hdisj q hq
        simp only [List.map_cons, List.mem_cons] at this
        intro hmem
        exact this (Or.inr hmem)
      · have hq2 : q = (p.1, mkSTable p.2) := List.mem_singleton.mp hq
        rw [hq2]
        exact keysOk_head_not_mem hkeys
    · exact keysOk_tail hkeys
    · intro q hq
      exact hok q (List.mem_cons_of_mem p hq)

theorem save_ok (db : Database) (h : dbOk db = true) :
    Database.save db [] = .ok (db.tables.map (fun p => (p.1, mkSTable p.2))) := by
  have h1 := Bool.and_eq_true_iff.mp h
  rw [Database.save, save_fold_ok db.tables [] (by intro q hq; cases hq) h1.1 ?_]
  · rfl
  · intro p hp
    have := List.all_eq_true.mp h1.2 p hp
    exact (Bool.and_eq_true_iff.mp this).2


/-! ## The load side -/

theorem inferType_colKind (ty : PyType) (h : (ty == PyType.ulistdict) = false) :
    inferType (colKind ty) = typeMap ty := by
  cases ty <;> first | rfl | exact Bool.noConfusion h

theorem add_fields_eq : ∀ (fs : List (String × PyType)) (t : Table),
    t.add_fields fs = ⟨t.name, t.fields ++ fs.map (fun p => ⟨p.1, p.2⟩), t.rows⟩ := by
  intro fs
  induction fs with
  | nil =>
    intro t
    show t = ⟨t.name, t.fields ++ [], t.rows⟩
    rw [List.append_nil]
  | cons p rest ih =>
    intro t
    show Table.add_fields (t.add_field p.1 p.2) rest = _
    rw [ih]
    show (⟨t.name, (t.fields ++ [⟨p.1, p.2⟩]) ++ rest.map (fun p => ⟨p.1, p.2⟩), t.rows⟩ : Table) = _
    rw [List.append_assoc]
    rfl

theorem checkKwargs_none (fields : List Field) : ∀ (kwargs : List (String × Val)),
    (∀ kv ∈ kwargs, ∃ ty, findType fields kv.1 = some ty ∧ isinstanceOf kv.2 ty = true) →
    checkKwargs fields kwargs = none := by
  intro kwargs
  induction kwargs with
  | nil => intro _; rfl
  | cons kv rest ih =>
    intro h
    obtain ⟨ty, hf, hi⟩ := h kv (List.mem_cons_self kv rest)
    rw [checkKwargs, hf]
    show (if isinstanceOf kv.2 ty = true then checkKwargs fields rest else some DBError.typeMismatch) = none
    rw [if_pos hi]
    exact ih (fun x hx => h x (List.mem_cons_of_mem kv hx))

theorem add_row_ok (t : Table) (kwargs : List (String × Val))
    (hlen : kwargs.length = t.fields.length)
    (hok : ∀ kv ∈ kwargs, ∃ ty, findType t.fields kv.1 = some ty ∧ isinstanceOf kv.2 ty = true) :
    t.add_row kwargs = ({ t with rows := t.rows ++ [mkRow kwargs] }, none) := by
  rw [Table.add_row, if_neg (by omega)]
  rw [checkKwargs_none t.fields kwargs hok]

theorem findType_reload : ∀ (fields : List Field),
    keysOk (fields.map Field.name) = true →
    ∀ f ∈ fields, findType (fields.map reloadField) f.name = some (typeMap f.data_type) := by
  intro fields
  induction fields with
  | nil => intro _ f hf; cases hf
  | cons g rest ih =>
    intro hkeys f hf
    rcases List.mem_cons.mp hf with hf | hf
    · subst hf
      rw [List.map_cons, findType, List.find?_cons_of_pos _ (by simp [reloadField])]
      rfl
    · have hne : g.name ≠ f.name := by
        intro heq
        have hmem : g.name ∈ rest.map Field.name := by
          rw [heq]
          exact List.mem_map.mpr ⟨f, hf, rfl⟩
        rw [List.map_cons] at hkeys
        exact keysOk_head_not_mem hkeys hmem
      rw [List.map_cons, findType, List.find?_cons_of_neg _ (by simp [reloadField, hne])]
      rw [List.map_cons] at hkeys
      exact ih (keysOk_tail hkeys) f hf

/-- Loading one saved row into the reconstructed table appends the
schema-ordered original row. -/
theorem load_one_row (t : Table) (hkeys : keysOk (t.fields.map Field.name) = true)
    (r : Row) (hr : rowOk t.fields r = true) (acc : Table)
    (hfacc : acc.fields = t.fields.map reloadField) :
    Table.add_row acc (List.zip ((mkCols t).map Prod.fst) ((alignedRow t r).map deserialize)) =
      ({ acc with rows := acc.rows ++ [reloadRow t r] }, none) := by
  have hnames : (mkCols t).map Prod.fst = t.fields.map Field.name := by
    rw [mkCols, List.map_map]
    rfl
  have hkwargs : List.zip ((mkCols t).map Prod.fst) ((alignedRow t r).map deserialize) =
      t.fields.map (fun f => (f.name, deserialize (origVal r f))) := by
    rw [hnames, alignedRow_eq t r hr, List.map_map]
    exact List.zip_map' Field.name (fun f => deserialize (origVal r f)) t.fields
  rw [hkwargs]
  have hres := add_row_ok acc (t.fields.map (fun f => (f.name, deserialize (origVal r f))))
    (by rw [List.length_map, hfacc, List.length_map]) ?_
  · rw [hres]
    have hrow : mkRow (t.fields.map (fun f => (f.name, deserialize (origVal r f)))) =
        reloadRow t r := by
      rw [mkRow, reloadRow, List.map_map]
      congr 1
      apply List.map_congr_left
      intro f hf
      show (f.name, serialize (deserialize (origVal r f))) = (f.name, origVal r f)
      rw [(storedOk_facts _ _ (rowOk_lookup hr f hf).2).2.2]
    rw [hrow]
  · intro kv hkv
    rw [List.mem_map] at hkv
    obtain ⟨f, hf, heq⟩ := hkv
    refine ⟨typeMap f.data_type, ?_, ?_⟩
    · rw [← heq]
      show findType acc.fields f.name = some (typeMap f.data_type)
      rw [hfacc]
      exact findType_reload t.fields hkeys f hf
    · rw [← heq]
      show isinstanceOf (deserialize (origVal r f)) (typeMap f.data_type) = true
      exact (storedOk_facts _ _ (rowOk_lookup hr f hf).2).2.1


theorem tableOk_parts {t : Table} (h : tableOk t = true) :
    t.fields.isEmpty = false ∧ keysOk (t.fields.map Field.name) = true ∧
      (∀ f ∈ t.fields, (f.data_type == PyType.ulistdict) = false) ∧
      (∀ r ∈ t.rows, rowOk t.fields r = true) := by
  have h1 := Bool.and_eq_true_iff.mp h
  have h2 := Bool.and_eq_true_iff.mp h1.1
  have h3 := Bool.and_eq_true_iff.mp h2.1
  refine ⟨?_, h3.2, ?_, ?_⟩
  · cases hx : t.fields.isEmpty
    · rfl
    · rw [hx] at h3
      exact absurd h3.1 (by decide)
  · intro f hf
    have hh := List.all_eq_true.mp h2.2 f hf
    cases hx : (f.data_type == PyType.ulistdict)
    · rfl
    · rw [hx] at hh
      exact absurd hh (by decide)
  · intro r hr
    exact List.all_eq_true.mp h1.2 r hr

theorem except_bind_ok {α β : Type} (a : α) (g : α → Except DBError β) :
    Except.bind (Except.ok a) g = g a := rfl

theorem loadRowStep_ok (t : Table) (hkeys : keysOk (t.fields.map Field.name) = true)
    (r : Row) (hr : rowOk t.fields r = true) (acc : Table)
    (hfacc : acc.fields = t.fields.map reloadField) :
    loadRowStep (mkCols t) acc (alignedRow t r) =
      .ok { acc with rows := acc.rows ++ [reloadRow t r] } := by
  rw [loadRowStep, load_one_row t hkeys r hr acc hfacc]

theorem loadRowsInto_ok (t : Table) (hkeys : keysOk (t.fields.map Field.name) = true) :
    ∀ (rows : List Row), (∀ r ∈ rows, rowOk t.fields r = true) →
    ∀ (acc : Table), acc.fields = t.fields.map reloadField →
    loadRowsInto (mkCols t) (rows.map (alignedRow t)) acc =
      .ok { acc with rows := acc.rows ++ rows.map (reloadRow t) } := by
  intro rows
  induction rows with
  | nil =>
    intro _ acc _
    rw [List.map_nil, List.map_nil, List.append_nil]
    rfl
  | cons r rest ih =>
    intro hall acc hfacc
    rw [loadRowsInto, List.map_cons, List.foldlM_cons,
      loadRowStep_ok t hkeys r (hall r (List.mem_cons_self r rest)) acc hfacc]
    show loadRowsInto (mkCols t) (rest.map (alignedRow t))
        { acc with rows := acc.rows ++ [reloadRow t r] } = _
    rw [ih (fun x hx => hall x (List.mem_cons_of_mem r hx))
      { acc with rows := acc.rows ++ [reloadRow t r] } hfacc]
    rw [List.append_assoc]
    rfl

theorem map_update_append (l : List (String × Table)) (tname : String) (t0 tf : Table)
    (h : ∀ q ∈ l, q.1 ≠ tname) :
    (l ++ [(tname, t0)]).map (fun kv => if kv.1 = tname then (kv.1, tf) else kv) =
      l ++ [(tname, tf)] := by
  rw [List.map_append]
  congr 1
  · calc l.map (fun kv => if kv.1 = tname then (kv.1, tf) else kv)
        = l.map id := by
          apply List.map_congr_left
          intro kv hkv
          rw [if_neg (h kv hkv)]
          rfl
      _ = l := List.map_id l
  · show [if tname = tname then (tname, tf) else (tname, t0)] = [(tname, tf)]
    rw [if_pos rfl]


theorem loadTable_ok (d : Database) (tname : String) (t : Table)
    (hns : tname ≠ "sqlite_sequence")
    (hnew : d.tables.any (fun kv => kv.1 = tname) = false)
    (ht : tableOk t = true) :
    loadTable d tname (mkSTable t) =
      .ok ⟨d.tables ++ [(tname, reloadTable tname t)], d.db_file⟩ := by
  obtain ⟨_, hkeys, hnu, hrows⟩ := tableOk_parts ht
  have hcols : (mkSTable t).cols = mkCols t := rfl
  have hsrows : (mkSTable t).rows = t.rows.map (alignedRow t) := rfl
  have hfd : (mkCols t).map (fun c => (c.1, inferType c.2)) =
      t.fields.map (fun f => (f.name, typeMap f.data_type)) := by
    rw [mkCols, List.map_map]
    apply List.map_congr_left
    intro f hf
    show (f.name, inferType (colKind f.data_type)) = _
    rw [inferType_colKind f.data_type (hnu f hf)]
  have ht0 : (Table.mk tname [] []).add_fields ((mkCols t).map (fun c => (c.1, inferType c.2))) =
      ⟨tname, t.fields.map reloadField, []⟩ := by
    rw [add_fields_eq, hfd, List.map_map]
    show (⟨tname, [] ++ t.fields.map (fun f =>
      (⟨(f.name, typeMap f.data_type).1, (f.name, typeMap f.data_type).2⟩ : Field)), []⟩ : Table) = _
    rw [List.nil_append]
    rfl
  have hcreate : Database.create d tname ((mkCols t).map (fun c => (c.1, inferType c.2))) =
      .ok ⟨d.tables ++ [(tname, ⟨tname, t.fields.map reloadField, []⟩)], d.db_file⟩ := by
    rw [Database.create, if_neg (by rw [hnew]; exact Bool.noConfusion), ht0]
  have hfold : loadRowsInto (mkCols t) ((mkSTable t).rows)
      ((Table.mk tname [] []).add_fields ((mkCols t).map (fun c => (c.1, inferType c.2)))) =
      .ok ⟨tname, t.fields.map reloadField, t.rows.map (reloadRow t)⟩ := by
    rw [ht0, hsrows, loadRowsInto_ok t hkeys t.rows hrows ⟨tname, t.fields.map reloadField, []⟩ rfl]
    rw [List.nil_append]
  rw [loadTable, if_neg hns, hcols, hcreate, except_bind_ok]
  rw [hfold, except_bind_ok]
  have hdne : ∀ q ∈ d.tables, q.1 ≠ tname := by
    intro q hq heq
    have hany : d.tables.any (fun kv => kv.1 = tname) = true :=
      List.any_eq_true.mpr ⟨q, hq, by simp [heq]⟩
    rw [hany] at hnew
    exact Bool.noConfusion hnew
  show Except.ok { (⟨d.tables ++ [(tname, ⟨tname, t.fields.map reloadField, []⟩)], d.db_file⟩ : Database) with
      tables := (d.tables ++ [(tname, (⟨tname, t.fields.map reloadField, []⟩ : Table))]).map
        (fun (kv : String × Table) => if kv.1 = tname then (kv.1, (⟨tname, t.fields.map reloadField,
          t.rows.map (reloadRow t)⟩ : Table)) else kv) } = _
  rw [map_update_append _ _ _ _ hdne]
  rfl


/-- The database `load` reconstructs from a fresh save of `db`. -/
def reloadDB (db : Database) : Database :=
  ⟨db.tables.map (fun p => (p.1, reloadTable p.1 p.2)), ""⟩

theorem load_fold_ok : ∀ (tables : List (String × Table)) (d : Database),
    keysOk (tables.map Prod.fst) = true →
    (∀ q ∈ d.tables, q.1 ∉ tables.map Prod.fst) →
    (∀ p ∈ tables, p.1 ≠ "sqlite_sequence" ∧ tableOk p.2 = true) →
    List.foldlM (fun dd (p : String × STable) => loadTable dd p.1 p.2) d
        (tables.map (fun p => (p.1, mkSTable p.2))) =
      .ok ⟨d.tables ++ tables.map (fun p => (p.1, reloadTable p.1 p.2)), d.db_file⟩ := by
  intro tables
  induction tables with
  | nil =>
    intro d _ _ _
    rw [List.map_nil, List.foldlM_nil, List.map_nil, List.append_nil]
    rfl
  | cons p rest ih =>
    intro d hkeys hdisj hok
    have hmemp := List.mem_cons_self p rest
    have hnew : d.tables.any (fun kv => kv.1 = p.1) = false := by
      cases hx : d.tables.any (fun kv => kv.1 = p.1) with
      | false => rfl
      | true =>
        exfalso
        obtain ⟨q, hq, hqe⟩ := List.any_eq_true.mp hx
        have hqe2 : q.1 = p.1 := of_decide_eq_true hqe
        have := hdisj q hq
        rw [List.map_cons] at this
        exact this (hqe2 ▸ List.mem_cons_self p.1 (rest.map Prod.fst))
    rw [List.map_cons, List.foldlM_cons,
      loadTable_ok d p.1 p.2 (hok p hmemp).1 hnew (hok p hmemp).2]
    show List.foldlM (fun dd (p : String × STable) => loadTable dd p.1 p.2)
        ⟨d.tables ++ [(p.1, reloadTable p.1 p.2)], d.db_file⟩
        (rest.map (fun p => (p.1, mkSTable p.2))) = _
    rw [List.map_cons] at hkeys
    rw [ih ⟨d.tables ++ [(p.1, reloadTable p.1 p.2)], d.db_file⟩ (keysOk_tail hkeys) ?_ ?_]
    · rw [List.map_cons]
      show Except.ok (⟨(d.tables ++ [(p.1, reloadTable p.1 p.2)]) ++
          rest.map (fun p => (p.1, reloadTable p.1 p.2)), d.db_file⟩ : Database) = _
      rw [List.append_assoc]
      rfl
    · intro q hq
      rcases List.mem_append.mp hq with hq | hq
      · have := hdisj q hq
        rw [List.map_cons] at this
        intro hmem
        exact this (List.mem_cons_of_mem _ hmem)
      · have hq2 : q = (p.1, reloadTable p.1 p.2) := List.mem_singleton.mp hq
        rw [hq2]
        exact keysOk_head_not_mem hkeys
    · intro q hq
      exact hok q (List.mem_cons_of_mem p hq)

theorem dbOk_parts {db : Database} (h : dbOk db = true) :
    keysOk (db.tables.map Prod.fst) = true ∧
      ∀ p ∈ db.tables, p.1 ≠ "sqlite_sequence" ∧ tableOk p.2 = true := by
  have h1 := Bool.and_eq_true_iff.mp h
  refine ⟨h1.1, fun p hp => ?_⟩
  have hx := List.all_eq_true.mp h1.2 p hp
  have h2 := Bool.and_eq_true_iff.mp hx
  refine ⟨?_, h2.2⟩
  apply ne_of_beq_false
  cases hb : (p.1 == "sqlite_sequence")
  · rfl
  · rw [hb] at h2
    exact absurd h2.1 (by decide)


/-- C1 is corrected (see `claim_C1_counterexample`): this amended round-trip
holds for databases whose tables have only Integer/Float/Text/Composite
fields with distinct names and at least one column, whose rows were added
through `add_row` with well-formed values, and — the amendment the
counterexample forces — whose Text values cannot begin a JSON document
(`safeText`: empty or starting outside `jsonStart`, a conservative
decidable condition under which `json.loads` certainly fails, so `load`
leaves the text unchanged) and whose stored composites are canonical
printable-ASCII encodings (`dbOk`/`storedOk` spell these conditions out).
Then `save` followed
by `load` into a fresh Database yields, for every table in order, the same
field names, the `typeMap`-matched inferred types (Integer to Integer,
Float to Float, Text to Text, Composite to Composite), and rows whose
decoded mappings agree on every field name, with tables and rows in
insertion order. -/
theorem claim_C1 (db : Database) (h : dbOk db = true) :
    ∃ file db2,
      Database.save db [] = .ok file ∧
      Database.load ⟨[], ""⟩ file = .ok db2 ∧
      db2.tables.map Prod.fst = db.tables.map Prod.fst ∧
      List.Forall₂ (fun (p q : String × Table) =>
        q.2.fields.map Field.name = p.2.fields.map Field.name ∧
        q.2.fields.map Field.data_type = p.2.fields.map (fun fl => typeMap fl.data_type) ∧
        List.Forall₂ (fun r r2 => ∀ nm,
          listLookup (Row.get_all r2) nm = listLookup (Row.get_all r) nm) p.2.rows q.2.rows)
        db.tables db2.tables := by
  obtain ⟨hkeys, hall⟩ := dbOk_parts h
  refine ⟨db.tables.map (fun p => (p.1, mkSTable p.2)), reloadDB db, save_ok db h, ?_, ?_, ?_⟩
  · rw [Database.load]
    rw [load_fold_ok db.tables ⟨[], ""⟩ hkeys (by intro q hq; cases hq) hall]
    show Except.ok (⟨[] ++ db.tables.map (fun p => (p.1, reloadTable p.1 p.2)), ""⟩ : Database) = _
    rw [List.nil_append]
    rfl
  · show (db.tables.map (fun p => (p.1, reloadTable p.1 p.2))).map Prod.fst = _
    rw [List.map_map]
    rfl
  · show List.Forall₂ _ db.tables (db.tables.map (fun p => (p.1, reloadTable p.1 p.2)))
    rw [List.forall₂_map_right_iff]
    rw [List.forall₂_same]
    intro p hp
    obtain ⟨_, htok⟩ := hall p hp
    obtain ⟨_, htkeys, _, htrows⟩ := tableOk_parts htok
    refine ⟨?_, ?_, ?_⟩
    · show (p.2.fields.map reloadField).map Field.name = _
      rw [List.map_map]
      apply List.map_congr_left
      intro f _
      rfl
    · show (p.2.fields.map reloadField).map Field.data_type = _
      rw [List.map_map]
      apply List.map_congr_left
      intro f _
      rfl
    · show List.Forall₂ _ p.2.rows (p.2.rows.map (reloadRow p.2))
      rw [List.forall₂_map_right_iff]
      rw [List.forall₂_same]
      intro r hr nm
      have hrok := htrows r hr
      show listLookup (Row.get_all (reloadRow p.2 r)) nm = listLookup (Row.get_all r) nm
      rw [Row.get_all, Row.get_all, listLookup_map_val, listLookup_map_val,
        reloadRow_lookup p.2 r hrok nm]

theorem claim_C1_witness :
    dbOk ⟨[("t", ⟨"t", [⟨"a", .int⟩, ⟨"b", .float⟩, ⟨"c", .str⟩, ⟨"d", .list⟩],
      [mkRow [("d", .list [.int 1, .str "x"]), ("a", .int 5), ("b", .float 25 1), ("c", .str "hi")]]⟩)],
      "demo.db"⟩ = true ∧
    (∃ file db2,
      Database.save ⟨[("t", ⟨"t", [⟨"a", .int⟩, ⟨"b", .float⟩, ⟨"c", .str⟩, ⟨"d", .list⟩],
        [mkRow [("d", .list [.int 1, .str "x"]), ("a", .int 5), ("b", .float 25 1), ("c", .str "hi")]]⟩)],
        "demo.db"⟩ [] = .ok file ∧
      Database.load ⟨[], ""⟩ file = .ok db2 ∧
      db2.tables.map Prod.fst = [("t", (⟨"t", [⟨"a", .int⟩, ⟨"b", .float⟩, ⟨"c", .str⟩, ⟨"d", .list⟩],
        [mkRow [("d", .list [.int 1, .str "x"]), ("a", .int 5), ("b", .float 25 1), ("c", .str "hi")]]⟩ : Table))].map Prod.fst ∧
      List.Forall₂ (fun (p q : String × Table) =>
        q.2.fields.map Field.name = p.2.fields.map Field.name ∧
        q.2.fields.map Field.data_type = p.2.fields.map (fun fl => typeMap fl.data_type) ∧
        List.Forall₂ (fun r r2 => ∀ nm,
          listLookup (Row.get_all r2) nm = listLookup (Row.get_all r) nm) p.2.rows q.2.rows)
        [("t", ⟨"t", [⟨"a", .int⟩, ⟨"b", .float⟩, ⟨"c", .str⟩, ⟨"d", .list⟩],
          [mkRow [("d", .list [.int 1, .str "x"]), ("a", .int 5), ("b", .float 25 1), ("c", .str "hi")]]⟩)]
        db2.tables) :=
  ⟨by decide, claim_C1 _ (by decide)⟩

/-- C1 counterexample: the round-trip fails, as stated, for a Database a
caller can build through `add_row`: a single Text field holding the string
`"3"`.  `save` succeeds and stores the text `3`, but `load` deserializes it
to the integer `3`, so the reloaded `add_row` raises `TypeMismatch` and no
round-tripped Database is produced. -/
theorem claim_C1_counterexample :
    Database.save ⟨[("t", ⟨"t", [⟨"a", .str⟩], [mkRow [("a", .str "3")]]⟩)], "f.db"⟩ [] =
      .ok [("t", ⟨[("a", "TEXT")], [[Val.str "3"]]⟩)] ∧
    Database.load ⟨[], ""⟩ [("t", ⟨[("a", "TEXT")], [[Val.str "3"]]⟩)] =
      .error DBError.typeMismatch := ⟨rfl, rfl⟩

end RelaDB
